import Mathlib

set_option maxHeartbeats 1000000

namespace Blockfish

/- Shallow embedding of the analytical core of the blockfish engine:
   common.rs (value types), ai/analysis.rs (analysis handle), and
   ai/score.rs (heuristic evaluator).  Collaborators that are not part of
   the repository sources (the board bitmap primitive, the mpsc channel,
   the search driver, the placement and finesse finders, the union-find
   crate) are modelled from the specification and marked as such. -/

-- ---------------------------------------------------------------------------
-- common.rs
-- ---------------------------------------------------------------------------

/-- Input symbols from common.rs.  HD terminates a placement. -/
inductive Input where
  | Left
  | Right
  | CW
  | CCW
  | Hold
  | SD
  | HD
deriving DecidableEq

/-- Color from common.rs: a wrapper over a character. -/
structure Color where
  ch : Char
deriving DecidableEq

/-- Error value from common.rs for rejected color characters. -/
structure InvalidColorChar
deriving DecidableEq

/-- Rust method Color::as_char: returns the wrapped character. -/
def Color.as_char (c : Color) : Char := c.ch

/-- TryFrom of char for Color from common.rs, parameterized by the standard
library alphabetic test (char::is_alphabetic), which is external to the
repository: if the character passes the test the color wraps it, otherwise
the InvalidColorChar error is returned. -/
def colorTryFrom (isAlphabetic : Char → Bool) (c : Char) : Except InvalidColorChar Color :=
  if isAlphabetic c then .ok ⟨c⟩ else .error ⟨⟩

-- ---------------------------------------------------------------------------
-- ai/analysis.rs: move table and handle
-- ---------------------------------------------------------------------------

/-- Move record from analysis.rs: the latest information about a move. -/
structure Move where
  iteration : Nat
  rating : Int
  trace : List Nat
deriving DecidableEq

/-- Message sent from the worker thread to the Analysis handle. -/
structure Msg where
  move_id : Nat
  mov : Move
deriving DecidableEq

/-- Modelled from the spec: the handle owns a HashMap from MoveId to Move
(std HashMap is external to the repository); it is modelled as an
association list whose insert replaces the binding of an existing key.
MoveId is opaque and hashable and is modelled as Nat. -/
def insertMove (k : Nat) (v : Move) : List (Nat × Move) → List (Nat × Move)
  | [] => [(k, v)]
  | (k2, v2) :: rest => if k2 = k then (k, v) :: rest else (k2, v2) :: insertMove k v rest

/-- Lookup in the modelled move table. -/
def lookupMove (k : Nat) : List (Nat × Move) → Option Move
  | [] => none
  | (k2, v2) :: rest => if k2 = k then some v2 else lookupMove k rest

/-- Marker from analysis.rs that the analysis has finished. -/
structure AnalysisDone
deriving DecidableEq

/-- Modelled from the spec: the state visible to the Analysis handle.  The
mpsc receiver (std library, external to the repository) is modelled as the
list of pending messages together with a flag recording whether the sender
has been dropped; try_recv yields the first pending message, or Empty when
nothing is pending and the sender is alive, or Disconnected otherwise. -/
structure AnalysisSt where
  moves : List (Nat × Move)
  pending : List Msg
  closed : Bool
deriving DecidableEq

/-- Analysis::recv from analysis.rs: store the message under its MoveId. -/
def recvMsg (st : AnalysisSt) (msg : Msg) : AnalysisSt :=
  ⟨insertMove msg.move_id msg.mov st.moves, st.pending, st.closed⟩

/-- Analysis::poll from analysis.rs over the modelled channel: consume at
most one pending message, or report Ok none on an empty live channel, or
Err AnalysisDone once the sender is gone and nothing is pending. -/
def poll (st : AnalysisSt) : Except AnalysisDone (Option Nat) × AnalysisSt :=
  match st.pending with
  | msg :: rest =>
    (.ok (some msg.move_id), ⟨insertMove msg.move_id msg.mov st.moves, rest, st.closed⟩)
  | [] => if st.closed then (.error ⟨⟩, st) else (.ok none, st)

/-- Lexicographic comparison of (rating, iteration) pairs: the derived Ord
on Rust tuples, as used by Analysis::cmp. -/
def cmpKey (p q : Int × Nat) : Ordering :=
  if p.1 < q.1 then .lt
  else if q.1 < p.1 then .gt
  else if p.2 < q.2 then .lt
  else if q.2 < p.2 then .gt
  else .eq

/-- The (rating, iteration) key of a move record. -/
def moveKey (m : Move) : Int × Nat := (m.rating, m.iteration)

/-- Analysis::cmp from analysis.rs; the source panics on an unknown id,
which is modelled by the none result. -/
def cmpMoves (moves : List (Nat × Move)) (lhs rhs : Nat) : Option Ordering :=
  match lookupMove lhs moves, lookupMove rhs moves with
  | some a, some b => some (cmpKey (moveKey a) (moveKey b))
  | _, _ => none

/-- Folding Analysis::recv over a list of messages starting from the empty
move table, as successive poll calls do. -/
def processMsgs (msgs : List Msg) : List (Nat × Move) :=
  msgs.foldl (fun t msg => insertMove msg.move_id msg.mov t) []

/-- Default message, used to state index facts without dependent bounds. -/
def msg0 : Msg := ⟨0, ⟨0, 0, []⟩⟩

/-- Modelled from the spec: the search contract (section 3) that an update
strictly supersedes the previous record for the same move iff its rating is
lower, so the stream of messages produced by the worker has strictly
decreasing ratings per MoveId.  The b_star search source is not part of
this repository. -/
def ratingsDecreasing (msgs : List Msg) : Prop :=
  ∀ b, b < msgs.length → ∀ a, a < b →
    (msgs.getD a msg0).move_id = (msgs.getD b msg0).move_id →
    (msgs.getD b msg0).mov.rating < (msgs.getD a msg0).mov.rating

instance ratingsDecreasingDecidable (msgs : List Msg) : Decidable (ratingsDecreasing msgs) := by
  unfold ratingsDecreasing
  infer_instance

-- ---------------------------------------------------------------------------
-- ai/analysis.rs: trace reconstruction and suggestion
-- ---------------------------------------------------------------------------

/-- Placement descriptor from the place module interface (external to the
repository): an enumeration index and whether hold was used. -/
structure Placement where
  idx : Nat
  did_hold : Bool

/-- Modelled from the spec: the collaborators of reconstruct_inputs
(section 4.5): a deterministic placement enumerator, a finesse solver, and
the placement action on states. -/
structure ReconEnv (σ : Type) where
  placements : σ → List Placement
  finesse : σ → Placement → Option (List Input)
  place : σ → Placement → σ

/-- reconstruct_inputs from analysis.rs; the expect panics of the source
are modelled by the none result. -/
def reconstruct_inputs {σ : Type} (env : ReconEnv σ) (st : σ) : List Nat → Option (List Input)
  | [] => some []
  | idx :: rest =>
    match (env.placements st).find? (fun pl => pl.idx == idx) with
    | none => none
    | some pl =>
      match env.finesse st pl with
      | none => none
      | some fin =>
        match reconstruct_inputs env (env.place st pl) rest with
        | none => none
        | some more =>
          some ((if pl.did_hold then [Input.Hold] else []) ++ fin ++ Input.HD :: more)

/-- Suggestion value returned to the caller. -/
structure Suggestion where
  inputs : List Input
  rating : Int
deriving DecidableEq

/-- Largest usize value, which callers pass to request the whole sequence. -/
def usizeMax : Nat := 2 ^ 64 - 1

/-- Analysis::suggestion from analysis.rs: look up the move, truncate its
trace to min len (trace length), and run the trace-inputs closure; the
closure installed by spawn is reconstruct_inputs over the root state. -/
def suggestion {σ : Type} (env : ReconEnv σ) (s0 : σ) (moves : List (Nat × Move))
    (m_id len : Nat) : Option Suggestion :=
  match lookupMove m_id moves with
  | none => none
  | some mov =>
    match reconstruct_inputs env s0 (mov.trace.take (min len mov.trace.length)) with
    | none => none
    | some ins => some ⟨ins, mov.rating⟩

-- ---------------------------------------------------------------------------
-- Board model (external collaborator of ai/score.rs)
-- ---------------------------------------------------------------------------

/-- Modelled from the spec: the board bitmap primitive (BasicMatrix, whose
source is not part of this repository; section 3 of the spec): a fixed
column count and a dynamic list of rows with row 0 at the bottom; a cell
outside the stored data is empty. -/
structure BasicMatrix where
  cols : Nat
  data : List (List Bool)
deriving DecidableEq

/-- Modelled from the spec: the dynamic row count of the board. -/
def BasicMatrix.rows (m : BasicMatrix) : Nat := m.data.length

/-- Modelled from the spec: cell lookup; row 0 is the bottom row. -/
def BasicMatrix.get (m : BasicMatrix) (i j : Nat) : Bool :=
  (m.data.getD i []).getD j false

/-- Modelled from the spec: insert_empty_bottom_row prepends an all-empty
row below row 0. -/
def insert_empty_bottom_row (m : BasicMatrix) : BasicMatrix :=
  ⟨m.cols, List.replicate m.cols false :: m.data⟩

/-- Modelled from the spec: remove_rows deletes the rows with index in the
half-open range and collapses the rows above down. -/
def remove_rows (m : BasicMatrix) (a b : Nat) : BasicMatrix :=
  ⟨m.cols, m.data.take a ++ m.data.drop b⟩

/-- A matrix with one additional all-empty row appended on top, as in the
invariant of spec section 8. -/
def appendEmptyTopRow (m : BasicMatrix) : BasicMatrix :=
  ⟨m.cols, m.data ++ [List.replicate m.cols false]⟩

/-- A matrix has no filled cells. -/
def matrixEmpty (m : BasicMatrix) : Prop := ∀ i j, m.get i j = false

/-- The empty matrix with a given column count and no stored rows. -/
def emptyMatrix (c : Nat) : BasicMatrix := ⟨c, []⟩

/-- The row of cells of row i as a list of length cols. -/
def rowAt (m : BasicMatrix) (i : Nat) : List Bool :=
  (List.range m.cols).map (fun j => m.get i j)

/-- Scanner for the maximal runs of empty cells of a row: j is the current
column, the third argument carries the start of the open run of empty
cells, if any. -/
def gapsGo : List Bool → Nat → Option Nat → List (Nat × Nat)
  | [], _, none => []
  | [], j, some s => [(s, j)]
  | b :: rest, j, none =>
    if b then gapsGo rest (j + 1) none else gapsGo rest (j + 1) (some j)
  | b :: rest, j, some s =>
    if b then (s, j) :: gapsGo rest (j + 1) none else gapsGo rest (j + 1) (some s)

/-- Modelled from the spec: gaps of a row are the ordered, non-overlapping
half-open column ranges of empty cells in that row (section 3). -/
def gaps (m : BasicMatrix) (i : Nat) : List (Nat × Nat) := gapsGo (rowAt m i) 0 none

-- ---------------------------------------------------------------------------
-- ai/score.rs: gap geometry
-- ---------------------------------------------------------------------------

/-- Loop body of intersecting_ranges from ai/score.rs: i1 and i2 index into
xs and ys; the iterator ends when either runs off its list. -/
def irGo {α : Type} [LinearOrder α] (xs ys : List (α × α)) (i1 i2 : Nat) : List (Nat × Nat) :=
  if h1 : i1 < xs.length then
    if h2 : i2 < ys.length then
      if (xs.get ⟨i1, h1⟩).2 ≤ (ys.get ⟨i2, h2⟩).1 then irGo xs ys (i1 + 1) i2
      else if (ys.get ⟨i2, h2⟩).2 ≤ (xs.get ⟨i1, h1⟩).1 then irGo xs ys i1 (i2 + 1)
      else if (xs.get ⟨i1, h1⟩).2 ≤ (ys.get ⟨i2, h2⟩).2 then
        (i1, i2) :: irGo xs ys (i1 + 1) i2
      else (i1, i2) :: irGo xs ys i1 (i2 + 1)
    else []
  else []
termination_by (xs.length - i1) + (ys.length - i2)
decreasing_by all_goals omega

/-- intersecting_ranges from ai/score.rs: all index pairs of intersecting
ranges of two ordered lists of non-overlapping half-open ranges. -/
def intersecting_ranges {α : Type} [LinearOrder α] (xs ys : List (α × α)) : List (Nat × Nat) :=
  irGo xs ys 0 0

/-- Two half-open ranges share an interior point. -/
def rOverlap {α : Type} [LinearOrder α] (r s : α × α) : Prop :=
  max r.1 s.1 < min r.2 s.2

/-- Precondition of intersecting_ranges: the ranges are proper and listed
in order without overlapping each other. -/
def rangesOk {α : Type} [LinearOrder α] (l : List (α × α)) : Prop :=
  (∀ r ∈ l, r.1 < r.2) ∧ l.Pairwise (fun r s => r.2 ≤ s.1)

/-- Lexicographic strict order on index pairs: by the first index, ties by
the second. -/
def lexLT (p q : Nat × Nat) : Prop := p.1 < q.1 ∨ (p.1 = q.1 ∧ p.2 < q.2)

/-- Modelled from the spec: the disjoint-set structure of the external
red_union_find crate (spec section 4.1); modelled as the list of current
representatives, one entry per element. -/
def ufNew (n : Nat) : List Nat := List.range n

/-- Representative of an element in the modelled disjoint-set. -/
def ufFind (uf : List Nat) (i : Nat) : Nat := uf.getD i i

/-- Union of the classes of two elements in the modelled disjoint-set. -/
def ufUnion (uf : List Nat) (a b : Nat) : List Nat :=
  let ra := ufFind uf a
  let rb := ufFind uf b
  uf.map (fun r => if r = ra then rb else r)

/-- Cumulative end indices of the per-row gap segments inside the
concatenated gap list, as built by gaps_contiguous_areas. -/
def rowEndsGo (acc : Nat) : List Nat → List Nat
  | [] => []
  | l :: rest => (acc + l) :: rowEndsGo (acc + l) rest

/-- gaps_contiguous_areas from ai/score.rs: concatenate the per-row gap
ranges, union the ranges of neighboring rows that intersect, and return
the positive component areas.  The usize MAX sentinel of the source for
the index of the previous row segment is modelled as an Option. -/
def gaps_contiguous_areas (rowsGaps : List (List (Nat × Nat))) : List Nat :=
  let gapsAll := rowsGaps.flatten
  let rowEnds := rowEndsGo 0 (rowsGaps.map (fun r => r.length))
  let step := fun (s : List Nat × Option Nat × Nat) (idx2 : Nat) =>
    let uf := s.1
    let idx0 := s.2.1
    let idx1 := s.2.2
    let uf2 := match idx0 with
      | none => uf
      | some i0 =>
        let row1 := (gapsAll.drop i0).take (idx1 - i0)
        let row2 := (gapsAll.drop idx1).take (idx2 - idx1)
        (intersecting_ranges row1 row2).foldl
          (fun u p => ufUnion u (i0 + p.1) (idx1 + p.2)) uf
    (uf2, some idx1, idx2)
  let fin := rowEnds.foldl step (ufNew gapsAll.length, none, 0)
  let uf := fin.1
  let areas := (List.range gapsAll.length).foldl
    (fun a i =>
      let g := gapsAll.getD i (0, 0)
      a.set (ufFind uf i) (a.getD (ufFind uf i) 0 + (g.2 - g.1)))
    (List.replicate gapsAll.length 0)
  areas.filter (fun a => 0 < a)

/-- negative_spaces from ai/score.rs: the component areas of the negative
space of the rows in the half-open range from a to b. -/
def negative_spaces (m : BasicMatrix) (a b : Nat) : List Nat :=
  gaps_contiguous_areas ((List.range' a (b - a)).map (fun i => gaps m i))

/-- The piece estimate of one score loop iteration: the sum of the rounded
up quarters of the negative-space areas of the rows from a to b. -/
def piecesIn (m : BasicMatrix) (a b : Nat) : Int :=
  ((negative_spaces m a b).map (fun area => ((area + 3) / 4 : Nat))).foldl
    (fun s x => s + (x : Int)) 0

-- ---------------------------------------------------------------------------
-- ai/score.rs: covered hole detection
-- ---------------------------------------------------------------------------

/-- Inner column loop of covered_hole from ai/score.rs at row i: walks the
column indices js; buf holds the known residue range per column; a filled
cell below a gap ends the scan with the hole row and the residue. -/
def choRowGo (m : BasicMatrix) (i : Nat) : List Nat → List (Nat × Nat) →
    Except (Nat × (Nat × Nat)) (List (Nat × Nat))
  | [], buf => .ok buf
  | j :: js, buf =>
    if m.get i j then
      let res := buf.getD j (0, 0)
      if i + 1 < res.1 then .error (i + 1, res)
      else choRowGo m i js (buf.set j (i, max (i + 1) res.2))
    else choRowGo m i js buf

/-- Outer row loop of covered_hole: scans rows from the top down; the
argument i means the rows below i remain to be scanned. -/
def choRows (m : BasicMatrix) : Nat → List (Nat × Nat) →
    Except (Nat × (Nat × Nat)) (List (Nat × Nat))
  | 0, buf => .ok buf
  | i + 1, buf =>
    match choRowGo m i (List.range m.cols) buf with
    | .error e => .error e
    | .ok buf2 => choRows m i buf2

/-- Final floor check of covered_hole: a column whose residue does not
reach row 0 hides a hole at the floor. -/
def choFloor (buf : List (Nat × Nat)) : List Nat → Option (Nat × (Nat × Nat))
  | [] => none
  | j :: js =>
    let res := buf.getD j (0, 0)
    if 0 < res.1 then some (0, res) else choFloor buf js

/-- covered_hole from ai/score.rs: scan rows top to bottom tracking the
contiguous filled residue per column; report the first hole covered by
residue, together with the residue row range, or none. -/
def covered_hole (m : BasicMatrix) : Option (Nat × (Nat × Nat)) :=
  match choRows m m.rows (List.replicate m.cols (0, 0)) with
  | .error e => some e
  | .ok buf => choFloor buf (List.range m.cols)

/-- The residue range that the covered_hole scan records for column j once
all rows at or above i have been scanned without finding a hole. -/
def resFrom (m : BasicMatrix) (j i : Nat) : Nat × Nat :=
  if h : i < m.rows then
    if m.get i j then (i, max (i + 1) (resFrom m j (i + 1)).2)
    else resFrom m j (i + 1)
  else (0, 0)
termination_by m.rows - i
decreasing_by all_goals omega

/-- The error condition of the covered_hole scan at cell (i, j): the cell
is filled and the residue recorded above leaves a gap over it. -/
def errC (m : BasicMatrix) (i j : Nat) : Prop :=
  m.get i j = true ∧ i + 1 < (resFrom m j (i + 1)).1

/-- A well-formed residue entry: untouched, or a proper range within the
row bounds. -/
def entryOk (n : Nat) (e : Nat × Nat) : Prop :=
  e = (0, 0) ∨ (e.1 < e.2 ∧ e.2 ≤ n)

/-- Column j of the matrix has its filled cells downward closed: no empty
cell lies strictly below a filled cell. -/
def noHoles (m : BasicMatrix) : Prop :=
  ∀ j i1 i2, j < m.cols → i2 < i1 → i1 < m.rows → m.get i1 j = true → m.get i2 j = true

-- ---------------------------------------------------------------------------
-- ai/score.rs: score
-- ---------------------------------------------------------------------------

/-- Score parameters from ai/score.rs. -/
structure ScoreParams where
  row_factor : Int
  piece_estimate_factor : Int
  piece_penalty : Int
deriving DecidableEq

/-- Default score parameters from ai/score.rs. -/
def scoreParamsDefault : ScoreParams := ⟨0, 3, 4⟩

/-- Loop of score from ai/score.rs: repeatedly find a covered hole, count
the pieces needed for the negative space of the residue rows, remove those
rows and accumulate.  The fuel argument only bounds the iteration count;
score passes one more than the row count, which the termination theorem
shows is never exhausted. -/
def scoreGo (params : ScoreParams) : Nat → BasicMatrix → Int → Int → Int × Nat
  | 0, mat, sc, _ => (sc, mat.rows)
  | fuel + 1, mat, sc, depth =>
    match covered_hole mat with
    | none => (sc, mat.rows)
    | some (i, res) =>
      let pieces := piecesIn mat (i + 1) res.2
      scoreGo params fuel (remove_rows mat (i + 1) res.2)
        (sc + max 1 (pieces - depth)) (depth + 1)

/-- score from ai/score.rs: clone the matrix, insert an empty bottom row,
run the covered-hole loop, and combine with the parameter factors. -/
def score (params : ScoreParams) (matrix : BasicMatrix) : Int :=
  let m := insert_empty_bottom_row matrix
  let p := scoreGo params (m.rows + 1) m 0 0
  p.1 * params.piece_estimate_factor + (p.2 : Int) * params.row_factor

/-- penalty from ai/score.rs. -/
def penalty (params : ScoreParams) (depth : Nat) : Int :=
  (depth : Int) * params.piece_penalty

-- ---------------------------------------------------------------------------
-- Concrete data used by counterexamples and witnesses
-- ---------------------------------------------------------------------------

/-- Two messages for distinct moves carrying the same rating and the same
iteration, as the worker may send within a single search iteration. -/
def cexMsgs : List Msg := [⟨6, ⟨1, 5, []⟩⟩, ⟨7, ⟨1, 5, []⟩⟩]

/-- The message stream of the example analysis of the tests in
ai/analysis.rs. -/
def wMsgs : List Msg :=
  [⟨6, ⟨1, 1234, [6, 7, 8]⟩⟩, ⟨7, ⟨2, 1233, [7, 8, 9, 10]⟩⟩, ⟨6, ⟨3, 1233, [6, 7, 9]⟩⟩]

/-- A trivial deterministic reconstruction environment over a unit state. -/
def wEnv : ReconEnv Unit := ⟨fun _ => [⟨0, false⟩], fun _ _ => some [], fun _ _ => ()⟩

/-- A one-entry move table whose trace is two placements of index 0. -/
def wMoves : List (Nat × Move) := [(6, ⟨1, 1234, [0, 0]⟩)]

/-- Score parameters with a nonzero row factor. -/
def paramsRF1 : ScoreParams := ⟨1, 3, 4⟩

-- ---------------------------------------------------------------------------
-- Helper lemmas: lists
-- ---------------------------------------------------------------------------

theorem getD_set_self {α : Type} (l : List α) :
    ∀ (j : Nat) (v d : α), j < l.length → (l.set j v).getD j d = v := by
  induction l with
  | nil => intro j v d h; simp at h
  | cons x xs ih =>
    intro j v d h
    cases j with
    | zero => simp
    | succ j2 =>
      simp only [List.set_cons_succ, List.getD_cons_succ]
      exact ih j2 v d (by simpa using h)

theorem getD_set_ne {α : Type} (l : List α) :
    ∀ (j j2 : Nat) (v d : α), j ≠ j2 → (l.set j v).getD j2 d = l.getD j2 d := by
  induction l with
  | nil => intro j j2 v d _; simp
  | cons x xs ih =>
    intro j j2 v d h
    cases j with
    | zero =>
      cases j2 with
      | zero => exact absurd rfl h
      | succ k2 => simp
    | succ j3 =>
      cases j2 with
      | zero => simp
      | succ k2 =>
        simp only [List.set_cons_succ, List.getD_cons_succ]
        exact ih j3 k2 v d (by omega)

theorem getD_mem_or_default {α : Type} (l : List α) (j : Nat) (d : α) :
    l.getD j d ∈ l ∨ l.getD j d = d := by
  induction l generalizing j with
  | nil => right; simp
  | cons x xs ih =>
    cases j with
    | zero => left; simp
    | succ j2 =>
      simp only [List.getD_cons_succ]
      rcases ih j2 with h | h
      · left; exact List.mem_cons_of_mem x h
      · right; exact h

theorem getD_replicate_self {α : Type} (n : Nat) :
    ∀ (j : Nat) (v : α), (List.replicate n v).getD j v = v := by
  induction n with
  | zero => intro j v; simp
  | succ n2 ih =>
    intro j v
    cases j with
    | zero => simp [List.replicate]
    | succ j2 =>
      simp only [List.replicate, List.getD_cons_succ]
      exact ih j2 v

-- ---------------------------------------------------------------------------
-- Helper lemmas: move table
-- ---------------------------------------------------------------------------

theorem lookupMove_insertMove (k a : Nat) (v : Move) (t : List (Nat × Move)) :
    lookupMove a (insertMove k v t) = if k = a then some v else lookupMove a t := by
  induction t with
  | nil => simp [insertMove, lookupMove]
  | cons hd rest ih =>
    rcases hd with ⟨k2, v2⟩
    by_cases hk : k2 = k
    · subst hk
      simp only [insertMove, if_pos rfl, lookupMove]
      split_ifs <;> rfl
    · simp only [insertMove, if_neg hk, lookupMove, ih]
      split_ifs <;> first | rfl | (exfalso; omega)

theorem lookupMove_processAux (msgs : List Msg) :
    ∀ (t : List (Nat × Move)) (a : Nat) (mv : Move),
    lookupMove a (msgs.foldl (fun t2 msg => insertMove msg.move_id msg.mov t2) t) = some mv →
    (∃ i, i < msgs.length ∧ (msgs.getD i msg0).move_id = a ∧ (msgs.getD i msg0).mov = mv) ∨
    lookupMove a t = some mv := by
  induction msgs with
  | nil => intro t a mv h; right; exact h
  | cons m rest ih =>
    intro t a mv h
    simp only [List.foldl_cons] at h
    rcases ih _ a mv h with ⟨i, hi, hid, hmv⟩ | hbase
    · left
      refine ⟨i + 1, by simpa using Nat.succ_lt_succ hi, ?_, ?_⟩
      · simpa [List.getD_cons_succ] using hid
      · simpa [List.getD_cons_succ] using hmv
    · rw [lookupMove_insertMove] at hbase
      by_cases hk : m.move_id = a
      · rw [if_pos hk] at hbase
        left
        refine ⟨0, by simp, by simpa [List.getD_cons_zero] using hk, ?_⟩
        simpa [List.getD_cons_zero] using (Option.some.injEq _ _ ▸ hbase).symm ▸ rfl
      · right; rwa [if_neg hk] at hbase

theorem getD_take {α : Type} (l : List α) :
    ∀ (k i : Nat) (d : α), i < k → (l.take k).getD i d = l.getD i d := by
  induction l with
  | nil => intro k i d _; simp
  | cons x xs ih =>
    intro k i d h
    cases k with
    | zero => omega
    | succ k2 =>
      cases i with
      | zero => simp
      | succ i2 =>
        simp only [List.take_succ_cons, List.getD_cons_succ]
        exact ih k2 i2 d (by omega)

-- ---------------------------------------------------------------------------
-- Helper lemmas: the comparison key
-- ---------------------------------------------------------------------------

theorem cmpKey_eq_iff (p q : Int × Nat) : cmpKey p q = .eq ↔ p = q := by
  rcases p with ⟨a, b⟩
  rcases q with ⟨c, d⟩
  simp only [cmpKey, Prod.mk.injEq]
  split_ifs with h1 h2 h3 h4 <;> simp <;> omega

theorem cmpKey_lt_iff (p q : Int × Nat) :
    cmpKey p q = .lt ↔ (p.1 < q.1 ∨ (p.1 = q.1 ∧ p.2 < q.2)) := by
  rcases p with ⟨a, b⟩
  rcases q with ⟨c, d⟩
  simp only [cmpKey]
  split_ifs with h1 h2 h3 h4 <;> simp <;> omega

theorem cmpKey_gt_iff_swap (p q : Int × Nat) : cmpKey p q = .gt ↔ cmpKey q p = .lt := by
  rcases p with ⟨a, b⟩
  rcases q with ⟨c, d⟩
  simp only [cmpKey]
  split_ifs <;> simp <;> omega

-- ---------------------------------------------------------------------------
-- C10: Color try_from round trip
-- ---------------------------------------------------------------------------

/-- C10: for every character accepted by the alphabetic test, try_from
succeeds and the resulting color's as_char returns exactly that character;
for every rejected character try_from returns the InvalidColorChar error
and produces no Color. -/
theorem color_try_from_round_trip (isAlphabetic : Char → Bool) (c : Char) :
    (isAlphabetic c = true →
      colorTryFrom isAlphabetic c = .ok ⟨c⟩ ∧ (Color.mk c).as_char = c) ∧
    (isAlphabetic c = false → colorTryFrom isAlphabetic c = .error ⟨⟩) := by
  constructor
  · intro h
    exact ⟨by simp [colorTryFrom, h], rfl⟩
  · intro h
    simp [colorTryFrom, h]

/-- Witness for C10 at a concrete alphabetic and a concrete non-alphabetic
character, with the ASCII alphabetic test. -/
theorem color_try_from_round_trip_witness :
    (colorTryFrom Char.isAlpha 'a' = .ok ⟨'a'⟩ ∧ (Color.mk 'a').as_char = 'a') ∧
    colorTryFrom Char.isAlpha '+' = .error ⟨⟩ :=
  ⟨(color_try_from_round_trip Char.isAlpha 'a').1 (by decide),
   (color_try_from_round_trip Char.isAlpha '+').2 (by decide)⟩

-- ---------------------------------------------------------------------------
-- C7: poll semantics
-- ---------------------------------------------------------------------------

/-- C7: poll is a total function on the modelled handle state (it never
blocks); it returns the AnalysisDone error exactly when the sender is gone
and nothing is pending, in which case the state is unchanged so every
subsequent poll keeps returning the error; on an empty live channel it
returns Ok none without changing state; otherwise it consumes exactly one
pending message, stores it under its MoveId, and returns Ok of that id. -/
theorem poll_done_spec (st : AnalysisSt) :
    ((poll st).1 = .error ⟨⟩ ↔ st.pending = [] ∧ st.closed = true) ∧
    ((poll st).1 = .error ⟨⟩ → (poll st).2 = st) ∧
    ((poll st).1 = .error ⟨⟩ → (poll ((poll st).2)).1 = .error ⟨⟩) ∧
    (st.pending = [] → st.closed = false → poll st = (.ok none, st)) ∧
    (∀ msg rest, st.pending = msg :: rest →
      poll st = (.ok (some msg.move_id),
        ⟨insertMove msg.move_id msg.mov st.moves, rest, st.closed⟩)) := by
  rcases st with ⟨mvs, pend, cl⟩
  cases pend with
  | nil => cases cl <;> simp [poll]
  | cons m rest => simp [poll]

/-- Witness for C7 at a concrete state with a dropped sender and an empty
channel. -/
theorem poll_done_spec_witness :
    ((poll ⟨[], [], true⟩).1 = .error ⟨⟩ ↔
      (⟨[], [], true⟩ : AnalysisSt).pending = [] ∧
      (⟨[], [], true⟩ : AnalysisSt).closed = true) ∧
    ((poll ⟨[], [], true⟩).1 = .error ⟨⟩ → (poll ⟨[], [], true⟩).2 = ⟨[], [], true⟩) ∧
    ((poll ⟨[], [], true⟩).1 = .error ⟨⟩ →
      (poll ((poll ⟨[], [], true⟩).2)).1 = .error ⟨⟩) ∧
    ((⟨[], [], true⟩ : AnalysisSt).pending = [] →
      (⟨[], [], true⟩ : AnalysisSt).closed = false →
      poll ⟨[], [], true⟩ = (.ok none, ⟨[], [], true⟩)) ∧
    (∀ msg rest, (⟨[], [], true⟩ : AnalysisSt).pending = msg :: rest →
      poll ⟨[], [], true⟩ = (.ok (some msg.move_id),
        ⟨insertMove msg.move_id msg.mov (⟨[], [], true⟩ : AnalysisSt).moves, rest,
          (⟨[], [], true⟩ : AnalysisSt).closed⟩)) :=
  poll_done_spec ⟨[], [], true⟩

-- ---------------------------------------------------------------------------
-- C1: cmp
-- ---------------------------------------------------------------------------

/-- C1 counterexample: after the handle has received two messages for the
distinct MoveIds 6 and 7 that carry the same rating and the same iteration
(a stream the per-move strict-improvement contract allows), cmp returns
Equal although the MoveIds differ, refuting that cmp(a,b) = Equal only
when a = b. -/
theorem cmp_equal_counterexample :
    cmpMoves (processMsgs cexMsgs) 6 7 = some .eq ∧ (6 : Nat) ≠ 7 ∧
    ratingsDecreasing cexMsgs := by
  decide

/-- C1 amended: cmp compares the stored records by (rating, iteration)
ascending; it returns Equal exactly when the two stored records carry the
same (rating, iteration) key, is antisymmetric and transitive as a strict
comparison, and it returns Equal exactly on identical MoveIds whenever
distinct stored MoveIds never share a (rating, iteration) key. -/
theorem cmp_total_order_amended (moves : List (Nat × Move)) (a b : Nat) (x y : Move)
    (ha : lookupMove a moves = some x) (hb : lookupMove b moves = some y) :
    cmpMoves moves a b = some (cmpKey (moveKey x) (moveKey y)) ∧
    (cmpMoves moves a b = some .eq ↔ moveKey x = moveKey y) ∧
    (cmpMoves moves a b = some .lt ↔
      (x.rating < y.rating ∨ (x.rating = y.rating ∧ x.iteration < y.iteration))) ∧
    (cmpMoves moves a b = some .gt ↔ cmpMoves moves b a = some .lt) ∧
    (∀ c z, lookupMove c moves = some z →
      cmpMoves moves a b = some .lt → cmpMoves moves b c = some .lt →
      cmpMoves moves a c = some .lt) ∧
    ((∀ a2 b2 x2 y2, lookupMove a2 moves = some x2 → lookupMove b2 moves = some y2 →
        moveKey x2 = moveKey y2 → a2 = b2) →
      (cmpMoves moves a b = some .eq ↔ a = b)) := by
  have hab : cmpMoves moves a b = some (cmpKey (moveKey x) (moveKey y)) := by
    simp [cmpMoves, ha, hb]
  have hba : cmpMoves moves b a = some (cmpKey (moveKey y) (moveKey x)) := by
    simp [cmpMoves, ha, hb]
  refine ⟨hab, ?_, ?_, ?_, ?_, ?_⟩
  · rw [hab]
    simp [cmpKey_eq_iff]
  · rw [hab]
    simp [cmpKey_lt_iff, moveKey]
  · rw [hab, hba]
    simp [cmpKey_gt_iff_swap]
  · intro c z hc h1 h2
    have hac : cmpMoves moves a c = some (cmpKey (moveKey x) (moveKey z)) := by
      simp [cmpMoves, ha, hc]
    have hbc : cmpMoves moves b c = some (cmpKey (moveKey y) (moveKey z)) := by
      simp [cmpMoves, hb, hc]
    rw [hab] at h1
    rw [hbc] at h2
    rw [hac]
    simp only [Option.some.injEq] at h1 h2
    simp only [Option.some.injEq]
    rw [cmpKey_lt_iff] at h1 h2 ⊢
    rcases h1 with h1 | ⟨h1e, h1i⟩ <;> rcases h2 with h2 | ⟨h2e, h2i⟩ <;>
      simp [moveKey] at * <;> omega
  · intro hinj
    rw [hab]
    simp only [Option.some.injEq, cmpKey_eq_iff]
    constructor
    · intro hkey
      exact hinj a b x y ha hb hkey
    · intro heq
      subst heq
      rw [ha] at hb
      injection hb with hxy
      rw [hxy]

/-- Witness for C1's amended theorem on the move table of the example
analysis of the tests: moves 6 and 7 are stored with distinct keys. -/
theorem cmp_total_order_amended_witness :
    cmpMoves (processMsgs wMsgs) 6 7 =
      some (cmpKey (moveKey ⟨3, 1233, [6, 7, 9]⟩) (moveKey ⟨2, 1233, [7, 8, 9, 10]⟩)) ∧
    (cmpMoves (processMsgs wMsgs) 6 7 = some .eq ↔
      moveKey ⟨3, 1233, [6, 7, 9]⟩ = moveKey ⟨2, 1233, [7, 8, 9, 10]⟩) ∧
    (cmpMoves (processMsgs wMsgs) 6 7 = some .lt ↔
      ((1233 : Int) < 1233 ∨ ((1233 : Int) = 1233 ∧ 3 < 2))) ∧
    (cmpMoves (processMsgs wMsgs) 6 7 = some .gt ↔
      cmpMoves (processMsgs wMsgs) 7 6 = some .lt) ∧
    (∀ c z, lookupMove c (processMsgs wMsgs) = some z →
      cmpMoves (processMsgs wMsgs) 6 7 = some .lt →
      cmpMoves (processMsgs wMsgs) 7 c = some .lt →
      cmpMoves (processMsgs wMsgs) 6 c = some .lt) ∧
    ((∀ a2 b2 x2 y2, lookupMove a2 (processMsgs wMsgs) = some x2 →
        lookupMove b2 (processMsgs wMsgs) = some y2 →
        moveKey x2 = moveKey y2 → a2 = b2) →
      (cmpMoves (processMsgs wMsgs) 6 7 = some .eq ↔ 6 = 7)) :=
  cmp_total_order_amended (processMsgs wMsgs) 6 7
    ⟨3, 1233, [6, 7, 9]⟩ ⟨2, 1233, [7, 8, 9, 10]⟩ (by decide) (by decide)

-- ---------------------------------------------------------------------------
-- C2: ratings strictly decrease across poll updates
-- ---------------------------------------------------------------------------

/-- C2: whenever a message stream obeys the search contract that ratings
strictly decrease per MoveId, every message that poll applies to a MoveId
already present in the move table carries a rating strictly lower than the
stored one (hence the stored rating is non-increasing over time). -/
theorem poll_rating_strictly_decreases (msgs : List Msg) (hdec : ratingsDecreasing msgs)
    (k : Nat) (hk : k < msgs.length) (mv : Move)
    (hlook : lookupMove (msgs.getD k msg0).move_id (processMsgs (msgs.take k)) = some mv) :
    (msgs.getD k msg0).mov.rating < mv.rating := by
  rcases lookupMove_processAux (msgs.take k) [] _ _ hlook with ⟨i, hi, hid, hmv⟩ | hbase
  · have hlen : (msgs.take k).length = k := by
      rw [List.length_take]
      omega
    rw [hlen] at hi
    rw [getD_take msgs k i msg0 hi] at hid hmv
    have := hdec k hk i hi hid
    rw [hmv] at this
    exact this
  · simp [lookupMove] at hbase

/-- Witness for C2 on the example analysis message stream: the third
message updates move 6, whose stored record still has rating 1234, with
the strictly lower rating 1233. -/
theorem poll_rating_strictly_decreases_witness : (1233 : Int) < 1234 :=
  poll_rating_strictly_decreases wMsgs (by decide) 2 (by decide)
    ⟨1, 1234, [6, 7, 8]⟩ (by decide)

-- ---------------------------------------------------------------------------
-- C8: suggestion truncation and prefix property
-- ---------------------------------------------------------------------------

theorem reconstruct_take_front {σ : Type} (env : ReconEnv σ) (t : List Nat) :
    ∀ (st : σ) (w : List Input), reconstruct_inputs env st t = some w →
    ∀ k, ∃ v, reconstruct_inputs env st (t.take k) = some v ∧ ∃ u, v ++ u = w := by
  induction t with
  | nil =>
    intro st w hw k
    simp only [reconstruct_inputs, Option.some.injEq] at hw
    exact ⟨[], by simp [reconstruct_inputs], w, by simp [hw]⟩
  | cons idx rest ih =>
    intro st w hw k
    cases k with
    | zero => exact ⟨[], by simp [reconstruct_inputs], w, rfl⟩
    | succ k2 =>
      simp only [reconstruct_inputs] at hw
      split at hw
      · exact absurd hw (by simp)
      · rename_i pl hfind
        split at hw
        · exact absurd hw (by simp)
        · rename_i fin hfin
          split at hw
          · exact absurd hw (by simp)
          · rename_i more hrec
            simp only [Option.some.injEq] at hw
            obtain ⟨v2, hv2, u, hu⟩ := ih (env.place st pl) more hrec k2
            refine ⟨(if pl.did_hold then [Input.Hold] else []) ++ fin ++ Input.HD :: v2,
              ?_, u, ?_⟩
            · simp [List.take_succ_cons, reconstruct_inputs, hfind, hfin, hv2]
            · rw [← hw, ← hu]
              simp

/-- C8: for a stored move whose whole trace reconstructs, suggestion with
length 0 yields the empty input list with the stored rating; suggestion
with usize MAX yields the full reconstruction; and for every length at
most the trace length the suggestion inputs are a prefix of the full
ones. -/
theorem suggestion_prefix_spec {σ : Type} (env : ReconEnv σ) (s0 : σ)
    (moves : List (Nat × Move)) (m : Nat) (mov : Move) (w : List Input)
    (hm : lookupMove m moves = some mov)
    (hw : reconstruct_inputs env s0 mov.trace = some w)
    (hlen : mov.trace.length ≤ usizeMax) :
    suggestion env s0 moves m 0 = some ⟨[], mov.rating⟩ ∧
    suggestion env s0 moves m usizeMax = some ⟨w, mov.rating⟩ ∧
    ∀ k, k ≤ mov.trace.length →
      ∃ v, suggestion env s0 moves m k = some ⟨v, mov.rating⟩ ∧ ∃ u, v ++ u = w := by
  refine ⟨?_, ?_, ?_⟩
  · simp [suggestion, hm, reconstruct_inputs]
  · have hmin : min usizeMax mov.trace.length = mov.trace.length := min_eq_right hlen
    simp [suggestion, hm, hmin, List.take_length, hw]
  · intro k hk
    have hmin : min k mov.trace.length = k := min_eq_left hk
    obtain ⟨v, hv, u, hu⟩ := reconstruct_take_front env mov.trace s0 w hw k
    exact ⟨v, by simp [suggestion, hm, hmin, hv], u, hu⟩

/-- Witness for C8 on a concrete environment and a one-entry move table
with trace of two placements. -/
theorem suggestion_prefix_spec_witness :
    suggestion wEnv () wMoves 6 0 = some ⟨[], 1234⟩ ∧
    suggestion wEnv () wMoves 6 usizeMax = some ⟨[Input.HD, Input.HD], 1234⟩ ∧
    ∀ k, k ≤ ([0, 0] : List Nat).length →
      ∃ v, suggestion wEnv () wMoves 6 k = some ⟨v, 1234⟩ ∧
        ∃ u, v ++ u = [Input.HD, Input.HD] :=
  suggestion_prefix_spec wEnv () wMoves 6 ⟨1, 1234, [0, 0]⟩ [Input.HD, Input.HD]
    rfl rfl (by decide)

-- ---------------------------------------------------------------------------
-- Helper lemmas: the residue function
-- ---------------------------------------------------------------------------

theorem resFrom_stop (m : BasicMatrix) (j i : Nat) (h : m.rows ≤ i) :
    resFrom m j i = (0, 0) := by
  rw [resFrom]
  rw [dif_neg (by omega)]

theorem resFrom_filled (m : BasicMatrix) (j i : Nat) (hi : i < m.rows)
    (hg : m.get i j = true) :
    resFrom m j i = (i, max (i + 1) (resFrom m j (i + 1)).2) := by
  rw [resFrom]
  rw [dif_pos hi, if_pos hg]

theorem resFrom_skip (m : BasicMatrix) (j i : Nat) (hi : i < m.rows)
    (hg : m.get i j = false) :
    resFrom m j i = resFrom m j (i + 1) := by
  rw [resFrom]
  rw [dif_pos hi, if_neg (by simp [hg])]

theorem resFrom_empty_col (m : BasicMatrix) (j i : Nat)
    (h : ∀ b, i ≤ b → b < m.rows → m.get b j = false) : resFrom m j i = (0, 0) := by
  by_cases hi : i < m.rows
  · rw [resFrom_skip m j i hi (h i (Nat.le_refl i) hi)]
    exact resFrom_empty_col m j (i + 1) (fun b hb1 hb2 => h b (by omega) hb2)
  · exact resFrom_stop m j i (by omega)
termination_by m.rows - i
decreasing_by all_goals omega

theorem resFrom_lower (m : BasicMatrix) (j i b : Nat) (hib : i ≤ b) (hb : b < m.rows)
    (hg : m.get b j = true) : i ≤ (resFrom m j i).1 := by
  have hi : i < m.rows := by omega
  by_cases hgi : m.get i j = true
  · rw [resFrom_filled m j i hi hgi]
  · have hgf : m.get i j = false := by simpa using hgi
    rw [resFrom_skip m j i hi hgf]
    have hb2 : i + 1 ≤ b := by
      rcases Nat.eq_or_lt_of_le hib with he | hl
      · exact absurd (he ▸ hg) hgi
      · omega
    have := resFrom_lower m j (i + 1) b hb2 hb hg
    omega
termination_by m.rows - i
decreasing_by all_goals omega

theorem resFrom_start_gt_iff (m : BasicMatrix) (j i : Nat) :
    i < (resFrom m j i).1 ↔
      (m.get i j = false ∧ ∃ b, i + 1 ≤ b ∧ b < m.rows ∧ m.get b j = true) := by
  constructor
  · intro h
    by_cases hi : i < m.rows
    · by_cases hg : m.get i j = true
      · rw [resFrom_filled m j i hi hg] at h
        exact absurd h (by omega)
      · have hgf : m.get i j = false := by simpa using hg
        refine ⟨hgf, ?_⟩
        by_contra hnone
        push_neg at hnone
        have hz : resFrom m j (i + 1) = (0, 0) :=
          resFrom_empty_col m j (i + 1)
            (fun b h1 h2 => by simpa using hnone b h1 h2)
        rw [resFrom_skip m j i hi hgf, hz] at h
        exact absurd h (by omega)
    · rw [resFrom_stop m j i (by omega)] at h
      exact absurd h (by omega)
  · rintro ⟨hgf, b, hb1, hb2, hgb⟩
    have hi : i < m.rows := by omega
    rw [resFrom_skip m j i hi hgf]
    have := resFrom_lower m j (i + 1) b hb1 hb2 hgb
    omega

-- ---------------------------------------------------------------------------
-- Helper lemmas: bounds of the covered_hole result
-- ---------------------------------------------------------------------------

theorem choRowGo_entry_ok (m : BasicMatrix) (i : Nat) (hin : i < m.rows) :
    ∀ (js : List Nat) (buf : List (Nat × Nat)),
    (∀ x ∈ buf, entryOk m.rows x) →
    (∀ e, choRowGo m i js buf = .error e →
      e.1 < e.2.1 ∧ e.2.1 < e.2.2 ∧ e.2.2 ≤ m.rows) ∧
    (∀ buf2, choRowGo m i js buf = .ok buf2 → ∀ x ∈ buf2, entryOk m.rows x) := by
  intro js
  induction js with
  | nil =>
    intro buf hb
    constructor
    · intro e he
      simp [choRowGo] at he
    · intro buf2 h2
      simp only [choRowGo, Except.ok.injEq] at h2
      rw [← h2]
      exact hb
  | cons j js ih =>
    intro buf hb
    have hres : entryOk m.rows (buf.getD j (0, 0)) := by
      rcases getD_mem_or_default buf j (0, 0) with h | h
      · exact hb _ h
      · rw [h]; left; rfl
    by_cases hg : m.get i j = true
    · by_cases hlt : i + 1 < (buf.getD j (0, 0)).1
      · constructor
        · intro e he
          simp only [choRowGo, if_pos hg, if_pos hlt, Except.error.injEq] at he
          rw [← he]
          rcases hres with hz | ⟨h1, h2⟩
          · rw [hz] at hlt; simp at hlt
          · exact ⟨hlt, h1, h2⟩
        · intro buf2 h2
          simp only [choRowGo, if_pos hg, if_pos hlt] at h2
          exact absurd h2 (by simp)
      · have hle2 : (buf.getD j (0, 0)).2 ≤ m.rows := by
          rcases hres with hz | ⟨h1, h2⟩
          · rw [hz]
            exact Nat.zero_le _
          · exact h2
        have hset : ∀ x ∈ buf.set j (i, max (i + 1) (buf.getD j (0, 0)).2),
            entryOk m.rows x := by
          intro x hx
          rcases List.mem_or_eq_of_mem_set hx with h | h
          · exact hb _ h
          · rw [h]
            right
            refine ⟨?_, ?_⟩
            · show i < max (i + 1) (buf.getD j (0, 0)).2
              omega
            · show max (i + 1) (buf.getD j (0, 0)).2 ≤ m.rows
              omega
        have := ih (buf.set j (i, max (i + 1) (buf.getD j (0, 0)).2)) hset
        constructor
        · intro e he
          simp only [choRowGo, if_pos hg, if_neg hlt] at he
          exact this.1 e he
        · intro buf2 h2
          simp only [choRowGo, if_pos hg, if_neg hlt] at h2
          exact this.2 buf2 h2
    · have := ih buf hb
      constructor
      · intro e he
        simp only [choRowGo, if_neg hg] at he
        exact this.1 e he
      · intro buf2 h2
        simp only [choRowGo, if_neg hg] at h2
        exact this.2 buf2 h2

theorem choRows_entry_ok (m : BasicMatrix) :
    ∀ (i : Nat), i ≤ m.rows → ∀ (buf : List (Nat × Nat)),
    (∀ x ∈ buf, entryOk m.rows x) →
    (∀ e, choRows m i buf = .error e →
      e.1 < e.2.1 ∧ e.2.1 < e.2.2 ∧ e.2.2 ≤ m.rows) ∧
    (∀ buf2, choRows m i buf = .ok buf2 → ∀ x ∈ buf2, entryOk m.rows x) := by
  intro i
  induction i with
  | zero =>
    intro _ buf hb
    constructor
    · intro e he
      simp [choRows] at he
    · intro buf2 h2
      simp only [choRows, Except.ok.injEq] at h2
      rw [← h2]
      exact hb
  | succ i2 ih =>
    intro hle buf hb
    have hrow := choRowGo_entry_ok m i2 (by omega) (List.range m.cols) buf hb
    cases hgo : choRowGo m i2 (List.range m.cols) buf with
    | error e2 =>
      constructor
      · intro e he
        simp only [choRows, hgo, Except.error.injEq] at he
        rw [← he]
        exact hrow.1 e2 hgo
      · intro buf2 h2
        simp only [choRows, hgo] at h2
        exact absurd h2 (by simp)
    | ok bufM =>
      have hbM := hrow.2 bufM hgo
      have := ih (by omega) bufM hbM
      constructor
      · intro e he
        simp only [choRows, hgo] at he
        exact this.1 e he
      · intro buf2 h2
        simp only [choRows, hgo] at h2
        exact this.2 buf2 h2

theorem choFloor_some_ok (buf : List (Nat × Nat)) (n : Nat)
    (hb : ∀ x ∈ buf, entryOk n x) :
    ∀ (js : List Nat) (e : Nat × (Nat × Nat)), choFloor buf js = some e →
    e.1 = 0 ∧ 0 < e.2.1 ∧ e.2.1 < e.2.2 ∧ e.2.2 ≤ n := by
  intro js
  induction js with
  | nil => intro e he; simp [choFloor] at he
  | cons j js ih =>
    intro e he
    have hres : entryOk n (buf.getD j (0, 0)) := by
      rcases getD_mem_or_default buf j (0, 0) with h | h
      · exact hb _ h
      · rw [h]; left; rfl
    by_cases h0 : 0 < (buf.getD j (0, 0)).1
    · simp only [choFloor, if_pos h0, Option.some.injEq] at he
      rw [← he]
      rcases hres with hz | ⟨h1, h2⟩
      · rw [hz] at h0; simp at h0
      · exact ⟨rfl, h0, h1, h2⟩
    · simp only [choFloor, if_neg h0] at he
      exact ih e he

theorem covered_hole_bounds (m : BasicMatrix) (e : Nat × (Nat × Nat))
    (he : covered_hole m = some e) :
    e.1 < e.2.1 ∧ e.2.1 < e.2.2 ∧ e.2.2 ≤ m.rows := by
  have hb0 : ∀ x ∈ List.replicate m.cols ((0 : Nat), (0 : Nat)), entryOk m.rows x := by
    intro x hx
    rw [List.eq_of_mem_replicate hx]
    left; rfl
  have hmain := choRows_entry_ok m m.rows (Nat.le_refl _) _ hb0
  unfold covered_hole at he
  cases hrows : choRows m m.rows (List.replicate m.cols (0, 0)) with
  | error e2 =>
    rw [hrows] at he
    simp only [Option.some.injEq] at he
    rw [← he]
    exact hmain.1 e2 hrows
  | ok buf =>
    rw [hrows] at he
    have hbuf := hmain.2 buf hrows
    have := choFloor_some_ok buf m.rows hbuf (List.range m.cols) e he
    exact ⟨by omega, this.2.2⟩

theorem remove_rows_decreases (m : BasicMatrix) (e : Nat × (Nat × Nat))
    (he : covered_hole m = some e) :
    (remove_rows m (e.1 + 1) e.2.2).rows < m.rows := by
  obtain ⟨h1, h2, h3⟩ := covered_hole_bounds m e he
  simp only [remove_rows, BasicMatrix.rows, List.length_append, List.length_take,
    List.length_drop] at h3 ⊢
  omega

-- ---------------------------------------------------------------------------
-- Helper lemmas: characterization of the covered_hole scan
-- ---------------------------------------------------------------------------

theorem choRowGo_ok_char (m : BasicMatrix) (i : Nat) (hi : i < m.rows) :
    ∀ (js : List Nat) (buf : List (Nat × Nat)),
    js.Nodup →
    (∀ j ∈ js, j < buf.length) →
    (∀ j ∈ js, buf.getD j (0, 0) = resFrom m j (i + 1)) →
    (∀ j ∈ js, ¬errC m i j) →
    ∃ buf2, choRowGo m i js buf = .ok buf2 ∧ buf2.length = buf.length ∧
      (∀ j ∈ js, buf2.getD j (0, 0) = resFrom m j i) ∧
      (∀ j, j ∉ js → buf2.getD j (0, 0) = buf.getD j (0, 0)) := by
  intro js
  induction js with
  | nil =>
    intro buf _ _ _ _
    exact ⟨buf, rfl, rfl, by simp, fun j _ => rfl⟩
  | cons j js ih =>
    intro buf hnd hlen hres herr
    have hndj := (List.nodup_cons.mp hnd).1
    have hnds := (List.nodup_cons.mp hnd).2
    by_cases hg : m.get i j = true
    · have hnerr := herr j (List.mem_cons_self j js)
      have hnlt : ¬(i + 1 < (buf.getD j (0, 0)).1) := by
        intro hcon
        rw [hres j (List.mem_cons_self j js)] at hcon
        exact hnerr ⟨hg, hcon⟩
      have hset1 : ∀ j2 ∈ js, j2 < (buf.set j (i, max (i + 1) (buf.getD j (0, 0)).2)).length := by
        intro j2 h2
        rw [List.length_set]
        exact hlen j2 (List.mem_cons_of_mem j h2)
      have hset2 : ∀ j2 ∈ js,
          (buf.set j (i, max (i + 1) (buf.getD j (0, 0)).2)).getD j2 (0, 0) =
            resFrom m j2 (i + 1) := by
        intro j2 h2
        rw [getD_set_ne buf j j2 _ _ (by intro hh; exact hndj (hh ▸ h2))]
        exact hres j2 (List.mem_cons_of_mem j h2)
      obtain ⟨buf2, hok, hlen2, hin2, hout2⟩ :=
        ih (buf.set j (i, max (i + 1) (buf.getD j (0, 0)).2)) hnds hset1 hset2
          (fun j2 h2 => herr j2 (List.mem_cons_of_mem j h2))
      refine ⟨buf2, ?_, ?_, ?_, ?_⟩
      · simp only [choRowGo, if_pos hg, if_neg hnlt]
        exact hok
      · rw [hlen2, List.length_set]
      · intro j2 h2
        rcases List.mem_cons.mp h2 with he | hmem
        · subst he
          rw [hout2 j2 hndj, getD_set_self buf j2 _ _ (hlen j2 (List.mem_cons_self j2 js)),
            hres j2 (List.mem_cons_self j2 js)]
          exact (resFrom_filled m j2 i hi hg).symm
        · exact hin2 j2 hmem
      · intro j2 h2
        have h2j : j2 ≠ j := fun hh => h2 (hh ▸ List.mem_cons_self j js)
        have h2s : j2 ∉ js := fun hh => h2 (List.mem_cons_of_mem j hh)
        rw [hout2 j2 h2s, getD_set_ne buf j j2 _ _ (fun hh => h2j hh.symm)]
    · have hgf : m.get i j = false := by simpa using hg
      obtain ⟨buf2, hok, hlen2, hin2, hout2⟩ :=
        ih buf hnds (fun j2 h2 => hlen j2 (List.mem_cons_of_mem j h2))
          (fun j2 h2 => hres j2 (List.mem_cons_of_mem j h2))
          (fun j2 h2 => herr j2 (List.mem_cons_of_mem j h2))
      refine ⟨buf2, ?_, hlen2, ?_, ?_⟩
      · simp only [choRowGo, if_neg hg]
        exact hok
      · intro j2 h2
        rcases List.mem_cons.mp h2 with he | hmem
        · subst he
          rw [hout2 j2 hndj, hres j2 (List.mem_cons_self j2 js)]
          exact (resFrom_skip m j2 i hi hgf).symm
        · exact hin2 j2 hmem
      · intro j2 h2
        exact hout2 j2 (fun hh => h2 (List.mem_cons_of_mem j hh))

theorem choRowGo_err_char (m : BasicMatrix) (i : Nat) :
    ∀ (js : List Nat) (buf : List (Nat × Nat)),
    js.Nodup →
    (∀ j ∈ js, buf.getD j (0, 0) = resFrom m j (i + 1)) →
    (∃ j ∈ js, errC m i j) →
    ∃ e, choRowGo m i js buf = .error e := by
  intro js
  induction js with
  | nil =>
    intro buf _ _ hex
    simp at hex
  | cons j js ih =>
    intro buf hnd hres hex
    have hndj := (List.nodup_cons.mp hnd).1
    have hnds := (List.nodup_cons.mp hnd).2
    by_cases hg : m.get i j = true
    · by_cases hlt : i + 1 < (buf.getD j (0, 0)).1
      · exact ⟨(i + 1, buf.getD j (0, 0)), by simp only [choRowGo, if_pos hg, if_pos hlt]⟩
      · obtain ⟨jw, hjw, hjerr⟩ := hex
        have hjwne : jw ≠ j := by
          intro hh
          subst hh
          rw [hres jw (List.mem_cons_self jw js)] at hlt
          exact hlt hjerr.2
        have hjw2 : jw ∈ js := by
          rcases List.mem_cons.mp hjw with he | hmem
          · exact absurd he hjwne
          · exact hmem
        have hset2 : ∀ j2 ∈ js,
            (buf.set j (i, max (i + 1) (buf.getD j (0, 0)).2)).getD j2 (0, 0) =
              resFrom m j2 (i + 1) := by
          intro j2 h2
          rw [getD_set_ne buf j j2 _ _ (by intro hh; exact hndj (hh ▸ h2))]
          exact hres j2 (List.mem_cons_of_mem j h2)
        obtain ⟨e, he⟩ := ih (buf.set j (i, max (i + 1) (buf.getD j (0, 0)).2)) hnds hset2
          ⟨jw, hjw2, hjerr⟩
        exact ⟨e, by simp only [choRowGo, if_pos hg, if_neg hlt]; exact he⟩
    · obtain ⟨jw, hjw, hjerr⟩ := hex
      have hjwne : jw ≠ j := by
        intro hh
        subst hh
        exact hg hjerr.1
      have hjw2 : jw ∈ js := by
        rcases List.mem_cons.mp hjw with he | hmem
        · exact absurd he hjwne
        · exact hmem
      obtain ⟨e, he⟩ := ih buf hnds
        (fun j2 h2 => hres j2 (List.mem_cons_of_mem j h2)) ⟨jw, hjw2, hjerr⟩
      exact ⟨e, by simp only [choRowGo, if_neg hg]; exact he⟩

theorem choRows_ok_char (m : BasicMatrix) :
    ∀ (i : Nat), i ≤ m.rows → ∀ (buf : List (Nat × Nat)),
    buf.length = m.cols →
    (∀ j, j < m.cols → buf.getD j (0, 0) = resFrom m j i) →
    (∀ r j, r < i → j < m.cols → ¬errC m r j) →
    ∃ buf2, choRows m i buf = .ok buf2 ∧ buf2.length = m.cols ∧
      ∀ j, j < m.cols → buf2.getD j (0, 0) = resFrom m j 0 := by
  intro i
  induction i with
  | zero =>
    intro _ buf hlen hres _
    exact ⟨buf, rfl, hlen, hres⟩
  | succ i2 ih =>
    intro hle buf hlen hres herr
    obtain ⟨bufM, hok, hlenM, hinM, _⟩ :=
      choRowGo_ok_char m i2 (by omega) (List.range m.cols) buf (List.nodup_range m.cols)
        (fun j hj => by rw [hlen]; exact List.mem_range.mp hj)
        (fun j hj => hres j (List.mem_range.mp hj))
        (fun j hj => herr i2 j (by omega) (List.mem_range.mp hj))
    obtain ⟨buf2, hok2, hlen2, hres2⟩ := ih (by omega) bufM (by rw [hlenM, hlen])
      (fun j hj => hinM j (List.mem_range.mpr hj))
      (fun r j hr hj => herr r j (by omega) hj)
    refine ⟨buf2, ?_, hlen2, hres2⟩
    simp only [choRows, hok]
    exact hok2

theorem choRows_err_char (m : BasicMatrix) :
    ∀ (i : Nat), i ≤ m.rows → ∀ (buf : List (Nat × Nat)),
    buf.length = m.cols →
    (∀ j, j < m.cols → buf.getD j (0, 0) = resFrom m j i) →
    (∃ r j, r < i ∧ j < m.cols ∧ errC m r j) →
    ∃ e, choRows m i buf = .error e := by
  intro i
  induction i with
  | zero =>
    intro _ _ _ _ hex
    obtain ⟨r, _, hr, _, _⟩ := hex
    omega
  | succ i2 ih =>
    intro hle buf hlen hres hex
    by_cases hrow : ∃ j, j < m.cols ∧ errC m i2 j
    · obtain ⟨j, hj, hjerr⟩ := hrow
      obtain ⟨e, he⟩ := choRowGo_err_char m i2 (List.range m.cols) buf (List.nodup_range m.cols)
        (fun j2 hj2 => hres j2 (List.mem_range.mp hj2))
        ⟨j, List.mem_range.mpr hj, hjerr⟩
      exact ⟨e, by simp only [choRows, he]⟩
    · push_neg at hrow
      obtain ⟨bufM, hok, hlenM, hinM, _⟩ :=
        choRowGo_ok_char m i2 (by omega) (List.range m.cols) buf (List.nodup_range m.cols)
          (fun j hj => by rw [hlen]; exact List.mem_range.mp hj)
          (fun j hj => hres j (List.mem_range.mp hj))
          (fun j hj => hrow j (List.mem_range.mp hj))
      obtain ⟨r, j, hr, hj, hjerr⟩ := hex
      have hr2 : r < i2 := by
        rcases Nat.lt_succ_iff_lt_or_eq.mp hr with h | h
        · exact h
        · exact absurd hjerr (h ▸ hrow j hj)
      obtain ⟨e, he⟩ := ih (by omega) bufM (by rw [hlenM, hlen])
        (fun j2 hj2 => hinM j2 (List.mem_range.mpr hj2)) ⟨r, j, hr2, hj, hjerr⟩
      exact ⟨e, by simp only [choRows, hok]; exact he⟩

theorem choFloor_none_iff (buf : List (Nat × Nat)) :
    ∀ (js : List Nat), choFloor buf js = none ↔ ∀ j ∈ js, (buf.getD j (0, 0)).1 = 0 := by
  intro js
  induction js with
  | nil => simp [choFloor]
  | cons j js ih =>
    by_cases h0 : 0 < (buf.getD j (0, 0)).1
    · simp only [choFloor, if_pos h0]
      constructor
      · intro h; simp at h
      · intro h
        have := h j (List.mem_cons_self j js)
        omega
    · simp only [choFloor, if_neg h0]
      rw [ih]
      constructor
      · intro h j2 h2
        rcases List.mem_cons.mp h2 with he | hmem
        · subst he; omega
        · exact h j2 hmem
      · intro h j2 h2
        exact h j2 (List.mem_cons_of_mem j h2)

theorem covered_hole_none_iff_conds (m : BasicMatrix) :
    covered_hole m = none ↔
      ((∀ r j, r < m.rows → j < m.cols → ¬errC m r j) ∧
       (∀ j, j < m.cols → (resFrom m j 0).1 = 0)) := by
  have hlen0 : (List.replicate m.cols ((0 : Nat), (0 : Nat))).length = m.cols := by
    simp
  have hres0 : ∀ j, j < m.cols →
      (List.replicate m.cols ((0 : Nat), (0 : Nat))).getD j (0, 0) = resFrom m j m.rows := by
    intro j _
    rw [getD_replicate_self, resFrom_stop m j m.rows (Nat.le_refl _)]
  constructor
  · intro h
    have hNoErr : ∀ r j, r < m.rows → j < m.cols → ¬errC m r j := by
      intro r j hr hj he
      obtain ⟨e, hee⟩ := choRows_err_char m m.rows (Nat.le_refl _) _ hlen0 hres0
        ⟨r, j, hr, hj, he⟩
      unfold covered_hole at h
      rw [hee] at h
      simp at h
    refine ⟨hNoErr, ?_⟩
    obtain ⟨buf2, hok, hlen2, hres2⟩ := choRows_ok_char m m.rows (Nat.le_refl _) _ hlen0 hres0
      (fun r j hr hj => hNoErr r j hr hj)
    unfold covered_hole at h
    rw [hok] at h
    intro j hj
    have := (choFloor_none_iff buf2 (List.range m.cols)).mp h j (List.mem_range.mpr hj)
    rwa [hres2 j hj] at this
  · rintro ⟨hNoErr, hFloor⟩
    obtain ⟨buf2, hok, hlen2, hres2⟩ := choRows_ok_char m m.rows (Nat.le_refl _) _ hlen0 hres0
      (fun r j hr hj => hNoErr r j hr hj)
    unfold covered_hole
    rw [hok]
    rw [choFloor_none_iff buf2 (List.range m.cols)]
    intro j hj
    rw [hres2 j (List.mem_range.mp hj)]
    exact hFloor j (List.mem_range.mp hj)

theorem holes_violation (m : BasicMatrix) (j : Nat) :
    ∀ (e f : Nat), e < f → f < m.rows → m.get f j = true → m.get e j = false →
    (∃ r, r < m.rows ∧ errC m r j) ∨ (0 < (resFrom m j 0).1) := by
  intro e
  induction e with
  | zero =>
    intro f hef hf hgf hge
    right
    rw [resFrom_start_gt_iff]
    exact ⟨hge, f, by omega, hf, hgf⟩
  | succ e2 ih =>
    intro f hef hf hgf hge
    by_cases hge2 : m.get e2 j = true
    · left
      refine ⟨e2, by omega, hge2, ?_⟩
      have : e2 + 1 < (resFrom m j (e2 + 1)).1 := by
        rw [resFrom_start_gt_iff]
        exact ⟨hge, f, by omega, hf, hgf⟩
      exact this
    · have hgef : m.get e2 j = false := by simpa using hge2
      exact ih f (by omega) hf hgf hgef

theorem noHoles_iff_conds (m : BasicMatrix) :
    ((∀ r j, r < m.rows → j < m.cols → ¬errC m r j) ∧
     (∀ j, j < m.cols → (resFrom m j 0).1 = 0)) ↔ noHoles m := by
  constructor
  · rintro ⟨hNoErr, hFloor⟩ j i1 i2 hj hlt hi1 hg1
    by_contra hg2
    have hg2f : m.get i2 j = false := by simpa using hg2
    rcases holes_violation m j i2 i1 hlt hi1 hg1 hg2f with ⟨r, hr, herr⟩ | hpos
    · exact hNoErr r j hr hj herr
    · have := hFloor j hj
      omega
  · intro hnh
    constructor
    · intro r j hr hj herr
      obtain ⟨hg, hlt⟩ := herr
      have := (resFrom_start_gt_iff m j (r + 1)).mp (by omega)
      obtain ⟨hup, b, hb1, hb2, hgb⟩ := this
      have := hnh j b (r + 1) hj (by omega) hb2 hgb
      rw [this] at hup
      simp at hup
    · intro j hj
      by_contra hne
      have hpos : 0 < (resFrom m j 0).1 := by omega
      have := (resFrom_start_gt_iff m j 0).mp hpos
      obtain ⟨hup, b, hb1, hb2, hgb⟩ := this
      have := hnh j b 0 hj (by omega) hb2 hgb
      rw [this] at hup
      simp at hup

-- ---------------------------------------------------------------------------
-- C3: covered_hole none characterization
-- ---------------------------------------------------------------------------

/-- C3: covered_hole returns none exactly when in every column the filled
cells form one contiguous run of rows reaching down to row 0, that is,
no column contains an empty cell strictly below a filled cell. -/
theorem covered_hole_none_iff_no_holes (m : BasicMatrix) :
    covered_hole m = none ↔
      (∀ j i1 i2, j < m.cols → i2 < i1 → i1 < m.rows →
        m.get i1 j = true → m.get i2 j = true) := by
  rw [covered_hole_none_iff_conds]
  exact noHoles_iff_conds m

-- ---------------------------------------------------------------------------
-- C9: termination of the score loop
-- ---------------------------------------------------------------------------

theorem scoreGo_fuel_indep (params : ScoreParams) :
    ∀ (f1 f2 : Nat) (mat : BasicMatrix) (sc depth : Int),
    mat.rows < f1 → mat.rows < f2 →
    scoreGo params f1 mat sc depth = scoreGo params f2 mat sc depth := by
  intro f1
  induction f1 with
  | zero => intro f2 mat sc depth h1 _; omega
  | succ f1 ih =>
    intro f2 mat sc depth h1 h2
    cases f2 with
    | zero => omega
    | succ f2 =>
      cases hch : covered_hole mat with
      | none => simp only [scoreGo, hch]
      | some e =>
        rcases e with ⟨i, res⟩
        simp only [scoreGo, hch]
        have hlt : (remove_rows mat (i + 1) res.2).rows < mat.rows :=
          remove_rows_decreases mat (i, res) hch
        exact ih f2 _ _ _ (by omega) (by omega)

/-- C9: whenever covered_hole returns some (h, r) the hole row lies
strictly below the residue range, which is proper and within the row
count; hence the row range (h+1)..r.end removed by an iteration of the
score loop is non-empty and the row count strictly decreases, so the loop
terminates: any fuel beyond the initial row count computes the same
result, in particular the amount score passes. -/
theorem score_loop_terminates (m : BasicMatrix) (e : Nat × (Nat × Nat))
    (he : covered_hole m = some e) :
    (e.1 < e.2.1 ∧ e.2.1 < e.2.2 ∧ e.2.2 ≤ m.rows) ∧
    (remove_rows m (e.1 + 1) e.2.2).rows < m.rows ∧
    (∀ params f1 f2 sc depth, m.rows < f1 → m.rows < f2 →
      scoreGo params f1 m sc depth = scoreGo params f2 m sc depth) :=
  ⟨covered_hole_bounds m e he, remove_rows_decreases m e he,
    fun params f1 f2 sc depth h1 h2 => scoreGo_fuel_indep params f1 f2 m sc depth h1 h2⟩

/-- Witness for C9 at a concrete matrix with a floor hole: one column,
empty bottom row, filled top row. -/
theorem score_loop_terminates_witness :
    ((0 : Nat) < 1 ∧ (1 : Nat) < 2 ∧ (2 : Nat) ≤ (⟨1, [[false], [true]]⟩ : BasicMatrix).rows) ∧
    (remove_rows ⟨1, [[false], [true]]⟩ (0 + 1) 2).rows <
      (⟨1, [[false], [true]]⟩ : BasicMatrix).rows ∧
    (∀ params f1 f2 sc depth,
      (⟨1, [[false], [true]]⟩ : BasicMatrix).rows < f1 →
      (⟨1, [[false], [true]]⟩ : BasicMatrix).rows < f2 →
      scoreGo params f1 ⟨1, [[false], [true]]⟩ sc depth =
        scoreGo params f2 ⟨1, [[false], [true]]⟩ sc depth) :=
  score_loop_terminates ⟨1, [[false], [true]]⟩ (0, (1, 2)) (by decide)

-- ---------------------------------------------------------------------------
-- Helper lemmas: intersecting ranges
-- ---------------------------------------------------------------------------

theorem getD_eq_get {α : Type} (l : List α) :
    ∀ (n : Nat) (d : α) (h : n < l.length), l.getD n d = l.get ⟨n, h⟩ := by
  induction l with
  | nil => intro n d h; simp at h
  | cons x xs ih =>
    intro n d h
    cases n with
    | zero => rfl
    | succ n2 =>
      simp only [List.getD_cons_succ]
      rw [ih n2 d (by simpa using h)]
      rfl

theorem rOverlap_iff {α : Type} [LinearOrder α] (r s : α × α) :
    rOverlap r s ↔ (r.1 < r.2 ∧ r.1 < s.2 ∧ s.1 < r.2 ∧ s.1 < s.2) := by
  simp only [rOverlap, max_lt_iff, lt_min_iff]
  tauto

theorem rangesOk_get_lt {α : Type} [LinearOrder α] (l : List (α × α)) (h : rangesOk l)
    (i : Nat) (hi : i < l.length) : (l.get ⟨i, hi⟩).1 < (l.get ⟨i, hi⟩).2 :=
  h.1 _ (List.get_mem l i hi)

theorem rangesOk_end_le {α : Type} [LinearOrder α] (l : List (α × α)) (h : rangesOk l)
    (i j : Nat) (hi : i < l.length) (hj : j < l.length) (hij : i < j) :
    (l.get ⟨i, hi⟩).2 ≤ (l.get ⟨j, hj⟩).1 := by
  have hp := List.pairwise_iff_getElem.mp h.2 i j hi hj hij
  simpa [List.get_eq_getElem] using hp

theorem rangesOk_start_mono {α : Type} [LinearOrder α] (l : List (α × α)) (h : rangesOk l)
    (i j : Nat) (hi : i < l.length) (hj : j < l.length) (hij : i ≤ j) :
    (l.get ⟨i, hi⟩).1 ≤ (l.get ⟨j, hj⟩).1 := by
  rcases Nat.eq_or_lt_of_le hij with he | hl
  · subst he
    exact le_of_eq rfl
  · exact le_trans (le_of_lt (rangesOk_get_lt l h i hi)) (rangesOk_end_le l h i j hi hj hl)

theorem irGo_bounds {α : Type} [LinearOrder α] (xs ys : List (α × α)) (i1 i2 : Nat)
    (p : Nat × Nat) (hp : p ∈ irGo xs ys i1 i2) :
    i1 ≤ p.1 ∧ i2 ≤ p.2 ∧ p.1 < xs.length ∧ p.2 < ys.length := by
  rw [irGo] at hp
  by_cases h1 : i1 < xs.length
  · rw [dif_pos h1] at hp
    by_cases h2 : i2 < ys.length
    · rw [dif_pos h2] at hp
      split_ifs at hp with hA hB hC
      · have := irGo_bounds xs ys (i1 + 1) i2 p hp
        exact ⟨by omega, this.2.1, this.2.2⟩
      · have := irGo_bounds xs ys i1 (i2 + 1) p hp
        exact ⟨this.1, by omega, this.2.2⟩
      · rcases List.mem_cons.mp hp with he | hmem
        · rw [he]
          exact ⟨Nat.le_refl _, Nat.le_refl _, h1, h2⟩
        · have := irGo_bounds xs ys (i1 + 1) i2 p hmem
          exact ⟨by omega, this.2.1, this.2.2⟩
      · rcases List.mem_cons.mp hp with he | hmem
        · rw [he]
          exact ⟨Nat.le_refl _, Nat.le_refl _, h1, h2⟩
        · have := irGo_bounds xs ys i1 (i2 + 1) p hmem
          exact ⟨this.1, by omega, this.2.2⟩
    · rw [dif_neg h2] at hp
      simp at hp
  · rw [dif_neg h1] at hp
    simp at hp
termination_by (xs.length - i1) + (ys.length - i2)
decreasing_by all_goals omega

theorem irGo_mem_iff {α : Type} [LinearOrder α] (xs ys : List (α × α))
    (hx : rangesOk xs) (hy : rangesOk ys) (i1 i2 : Nat) (p : Nat × Nat) :
    p ∈ irGo xs ys i1 i2 ↔
      (i1 ≤ p.1 ∧ i2 ≤ p.2 ∧ ∃ (hp1 : p.1 < xs.length) (hp2 : p.2 < ys.length),
        rOverlap (xs.get ⟨p.1, hp1⟩) (ys.get ⟨p.2, hp2⟩)) := by
  rw [irGo]
  by_cases h1 : i1 < xs.length
  · rw [dif_pos h1]
    by_cases h2 : i2 < ys.length
    · rw [dif_pos h2]
      split_ifs with hA hB hC
      · rw [irGo_mem_iff xs ys hx hy (i1 + 1) i2 p]
        constructor
        · rintro ⟨ha, hb, hov⟩
          exact ⟨by omega, hb, hov⟩
        · rintro ⟨ha, hb, hp1, hp2, hov⟩
          refine ⟨?_, hb, hp1, hp2, hov⟩
          rcases Nat.eq_or_lt_of_le ha with he | hl
          · exfalso
            rw [rOverlap_iff] at hov
            have hmono := rangesOk_start_mono ys hy i2 p.2 h2 hp2 hb
            have hx2 : (xs.get ⟨p.1, hp1⟩).2 = (xs.get ⟨i1, h1⟩).2 :=
              congrArg (fun z => (xs.get z).2) (Fin.ext he.symm)
            have hchain : (xs.get ⟨i1, h1⟩).2 < (xs.get ⟨i1, h1⟩).2 :=
              calc (xs.get ⟨i1, h1⟩).2 ≤ (ys.get ⟨i2, h2⟩).1 := hA
              _ ≤ (ys.get ⟨p.2, hp2⟩).1 := hmono
              _ < (xs.get ⟨p.1, hp1⟩).2 := hov.2.2.1
              _ = (xs.get ⟨i1, h1⟩).2 := hx2
            exact absurd hchain (lt_irrefl _)
          · omega
      · rw [irGo_mem_iff xs ys hx hy i1 (i2 + 1) p]
        constructor
        · rintro ⟨ha, hb, hov⟩
          exact ⟨ha, by omega, hov⟩
        · rintro ⟨ha, hb, hp1, hp2, hov⟩
          refine ⟨ha, ?_, hp1, hp2, hov⟩
          rcases Nat.eq_or_lt_of_le hb with he | hl
          · exfalso
            rw [rOverlap_iff] at hov
            have hmono := rangesOk_start_mono xs hx i1 p.1 h1 hp1 ha
            have hy2 : (ys.get ⟨p.2, hp2⟩).2 = (ys.get ⟨i2, h2⟩).2 :=
              congrArg (fun z => (ys.get z).2) (Fin.ext he.symm)
            have hchain : (ys.get ⟨i2, h2⟩).2 < (ys.get ⟨i2, h2⟩).2 :=
              calc (ys.get ⟨i2, h2⟩).2 ≤ (xs.get ⟨i1, h1⟩).1 := hB
              _ ≤ (xs.get ⟨p.1, hp1⟩).1 := hmono
              _ < (ys.get ⟨p.2, hp2⟩).2 := hov.2.1
              _ = (ys.get ⟨i2, h2⟩).2 := hy2
            exact absurd hchain (lt_irrefl _)
          · omega
      · rw [List.mem_cons, irGo_mem_iff xs ys hx hy (i1 + 1) i2 p]
        constructor
        · rintro (he | ⟨ha, hb, hov⟩)
          · rw [he]
            refine ⟨Nat.le_refl _, Nat.le_refl _, h1, h2, ?_⟩
            rw [rOverlap_iff]
            exact ⟨rangesOk_get_lt xs hx i1 h1, not_le.mp hB, not_le.mp hA,
              rangesOk_get_lt ys hy i2 h2⟩
          · exact ⟨by omega, hb, hov⟩
        · rintro ⟨ha, hb, hp1, hp2, hov⟩
          rcases Nat.eq_or_lt_of_le ha with he1 | hl1
          · rcases Nat.eq_or_lt_of_le hb with he2 | hl2
            · left
              rw [Prod.ext_iff]
              exact ⟨he1.symm, he2.symm⟩
            · exfalso
              rw [rOverlap_iff] at hov
              have hle := rangesOk_end_le ys hy i2 p.2 h2 hp2 hl2
              have hx2 : (xs.get ⟨p.1, hp1⟩).2 = (xs.get ⟨i1, h1⟩).2 :=
                congrArg (fun z => (xs.get z).2) (Fin.ext he1.symm)
              have hchain : (xs.get ⟨i1, h1⟩).2 < (xs.get ⟨i1, h1⟩).2 :=
                calc (xs.get ⟨i1, h1⟩).2 ≤ (ys.get ⟨i2, h2⟩).2 := hC
                _ ≤ (ys.get ⟨p.2, hp2⟩).1 := hle
                _ < (xs.get ⟨p.1, hp1⟩).2 := hov.2.2.1
                _ = (xs.get ⟨i1, h1⟩).2 := hx2
              exact absurd hchain (lt_irrefl _)
          · right
            exact ⟨hl1, hb, hp1, hp2, hov⟩
      · rw [List.mem_cons, irGo_mem_iff xs ys hx hy i1 (i2 + 1) p]
        constructor
        · rintro (he | ⟨ha, hb, hov⟩)
          · rw [he]
            refine ⟨Nat.le_refl _, Nat.le_refl _, h1, h2, ?_⟩
            rw [rOverlap_iff]
            exact ⟨rangesOk_get_lt xs hx i1 h1, not_le.mp hB, not_le.mp hA,
              rangesOk_get_lt ys hy i2 h2⟩
          · exact ⟨ha, by omega, hov⟩
        · rintro ⟨ha, hb, hp1, hp2, hov⟩
          rcases Nat.eq_or_lt_of_le hb with he2 | hl2
          · rcases Nat.eq_or_lt_of_le ha with he1 | hl1
            · left
              rw [Prod.ext_iff]
              exact ⟨he1.symm, he2.symm⟩
            · exfalso
              rw [rOverlap_iff] at hov
              have hle := rangesOk_end_le xs hx i1 p.1 h1 hp1 hl1
              have hy2 : (ys.get ⟨p.2, hp2⟩).2 = (ys.get ⟨i2, h2⟩).2 :=
                congrArg (fun z => (ys.get z).2) (Fin.ext he2.symm)
              have hchain : (ys.get ⟨i2, h2⟩).2 < (ys.get ⟨i2, h2⟩).2 :=
                calc (ys.get ⟨i2, h2⟩).2 ≤ (xs.get ⟨i1, h1⟩).2 := le_of_lt (not_le.mp hC)
                _ ≤ (xs.get ⟨p.1, hp1⟩).1 := hle
                _ < (ys.get ⟨p.2, hp2⟩).2 := hov.2.1
                _ = (ys.get ⟨i2, h2⟩).2 := hy2
              exact absurd hchain (lt_irrefl _)
          · right
            exact ⟨ha, hl2, hp1, hp2, hov⟩
    · rw [dif_neg h2]
      constructor
      · intro hp
        simp at hp
      · rintro ⟨ha, hb, hp1, hp2, _⟩
        omega
  · rw [dif_neg h1]
    constructor
    · intro hp
      simp at hp
    · rintro ⟨ha, hb, hp1, hp2, _⟩
      omega
termination_by (xs.length - i1) + (ys.length - i2)
decreasing_by all_goals omega

theorem irGo_sorted {α : Type} [LinearOrder α] (xs ys : List (α × α)) (i1 i2 : Nat) :
    (irGo xs ys i1 i2).Pairwise lexLT := by
  rw [irGo]
  by_cases h1 : i1 < xs.length
  · rw [dif_pos h1]
    by_cases h2 : i2 < ys.length
    · rw [dif_pos h2]
      split_ifs with hA hB hC
      · exact irGo_sorted xs ys (i1 + 1) i2
      · exact irGo_sorted xs ys i1 (i2 + 1)
      · rw [List.pairwise_cons]
        refine ⟨?_, irGo_sorted xs ys (i1 + 1) i2⟩
        intro q hq
        have := irGo_bounds xs ys (i1 + 1) i2 q hq
        left
        omega
      · rw [List.pairwise_cons]
        refine ⟨?_, irGo_sorted xs ys i1 (i2 + 1)⟩
        intro q hq
        have := irGo_bounds xs ys i1 (i2 + 1) q hq
        rcases Nat.lt_or_ge i1 q.1 with hl | hg
        · left
          exact hl
        · right
          exact ⟨by omega, by omega⟩
    · rw [dif_neg h2]
      exact List.Pairwise.nil
  · rw [dif_neg h1]
    exact List.Pairwise.nil
termination_by (xs.length - i1) + (ys.length - i2)
decreasing_by all_goals omega

-- ---------------------------------------------------------------------------
-- C4: intersecting_ranges
-- ---------------------------------------------------------------------------

/-- C4: on ordered lists of proper, non-overlapping half-open ranges,
intersecting_ranges yields exactly the index pairs whose ranges share an
interior point (max of starts below min of ends), in lexicographic order
by the first index with ties by the second; an empty input on either side
yields the empty output, and touching ranges are never paired. -/
theorem intersecting_ranges_spec (xs ys : List (Int × Int)) (dr : Int × Int)
    (hx : rangesOk xs) (hy : rangesOk ys) :
    (∀ p : Nat × Nat, p ∈ intersecting_ranges xs ys ↔
      (p.1 < xs.length ∧ p.2 < ys.length ∧
        max (xs.getD p.1 dr).1 (ys.getD p.2 dr).1 <
          min (xs.getD p.1 dr).2 (ys.getD p.2 dr).2)) ∧
    (intersecting_ranges xs ys).Pairwise lexLT ∧
    (xs = [] → intersecting_ranges xs ys = []) ∧
    (ys = [] → intersecting_ranges xs ys = []) ∧
    (∀ i j, i < xs.length → j < ys.length → (xs.getD i dr).2 ≤ (ys.getD j dr).1 →
      (i, j) ∉ intersecting_ranges xs ys) ∧
    (∀ i j, i < xs.length → j < ys.length → (ys.getD j dr).2 ≤ (xs.getD i dr).1 →
      (i, j) ∉ intersecting_ranges xs ys) := by
  have hmem : ∀ p : Nat × Nat, p ∈ intersecting_ranges xs ys ↔
      (p.1 < xs.length ∧ p.2 < ys.length ∧
        max (xs.getD p.1 dr).1 (ys.getD p.2 dr).1 <
          min (xs.getD p.1 dr).2 (ys.getD p.2 dr).2) := by
    intro p
    rw [intersecting_ranges, irGo_mem_iff xs ys hx hy 0 0 p]
    constructor
    · rintro ⟨_, _, hp1, hp2, hov⟩
      rw [getD_eq_get xs p.1 dr hp1, getD_eq_get ys p.2 dr hp2]
      exact ⟨hp1, hp2, hov⟩
    · rintro ⟨hp1, hp2, hov⟩
      rw [getD_eq_get xs p.1 dr hp1, getD_eq_get ys p.2 dr hp2] at hov
      exact ⟨Nat.zero_le _, Nat.zero_le _, hp1, hp2, hov⟩
  refine ⟨hmem, irGo_sorted xs ys 0 0, ?_, ?_, ?_, ?_⟩
  · intro he
    subst he
    rw [intersecting_ranges, irGo]
    simp
  · intro he
    subst he
    rw [intersecting_ranges, irGo]
    by_cases h1 : 0 < xs.length
    · rw [dif_pos h1]
      simp
    · rw [dif_neg h1]
  · intro i j hi hj htouch hmem2
    have := (hmem (i, j)).mp hmem2
    simp only [max_lt_iff, lt_min_iff] at this
    omega
  · intro i j hi hj htouch hmem2
    have := (hmem (i, j)).mp hmem2
    simp only [max_lt_iff, lt_min_iff] at this
    omega

/-- Witness for C4 on the range lists of the unit test of ai/score.rs. -/
theorem intersecting_ranges_spec_witness :
    (∀ p : Nat × Nat,
      p ∈ intersecting_ranges ([(0, 3), (6, 11), (13, 20)] : List (Int × Int))
        [(2, 5), (6, 7), (9, 12)] ↔
      (p.1 < ([(0, 3), (6, 11), (13, 20)] : List (Int × Int)).length ∧
        p.2 < ([(2, 5), (6, 7), (9, 12)] : List (Int × Int)).length ∧
        max (([(0, 3), (6, 11), (13, 20)] : List (Int × Int)).getD p.1 (0, 0)).1
            (([(2, 5), (6, 7), (9, 12)] : List (Int × Int)).getD p.2 (0, 0)).1 <
          min (([(0, 3), (6, 11), (13, 20)] : List (Int × Int)).getD p.1 (0, 0)).2
            (([(2, 5), (6, 7), (9, 12)] : List (Int × Int)).getD p.2 (0, 0)).2)) ∧
    (intersecting_ranges ([(0, 3), (6, 11), (13, 20)] : List (Int × Int))
      [(2, 5), (6, 7), (9, 12)]).Pairwise lexLT ∧
    (([(0, 3), (6, 11), (13, 20)] : List (Int × Int)) = [] →
      intersecting_ranges ([(0, 3), (6, 11), (13, 20)] : List (Int × Int))
        [(2, 5), (6, 7), (9, 12)] = []) ∧
    (([(2, 5), (6, 7), (9, 12)] : List (Int × Int)) = [] →
      intersecting_ranges ([(0, 3), (6, 11), (13, 20)] : List (Int × Int))
        [(2, 5), (6, 7), (9, 12)] = []) ∧
    (∀ i j, i < ([(0, 3), (6, 11), (13, 20)] : List (Int × Int)).length →
      j < ([(2, 5), (6, 7), (9, 12)] : List (Int × Int)).length →
      (([(0, 3), (6, 11), (13, 20)] : List (Int × Int)).getD i (0, 0)).2 ≤
        (([(2, 5), (6, 7), (9, 12)] : List (Int × Int)).getD j (0, 0)).1 →
      (i, j) ∉ intersecting_ranges ([(0, 3), (6, 11), (13, 20)] : List (Int × Int))
        [(2, 5), (6, 7), (9, 12)]) ∧
    (∀ i j, i < ([(0, 3), (6, 11), (13, 20)] : List (Int × Int)).length →
      j < ([(2, 5), (6, 7), (9, 12)] : List (Int × Int)).length →
      (([(2, 5), (6, 7), (9, 12)] : List (Int × Int)).getD j (0, 0)).2 ≤
        (([(0, 3), (6, 11), (13, 20)] : List (Int × Int)).getD i (0, 0)).1 →
      (i, j) ∉ intersecting_ranges ([(0, 3), (6, 11), (13, 20)] : List (Int × Int))
        [(2, 5), (6, 7), (9, 12)]) :=
  intersecting_ranges_spec [(0, 3), (6, 11), (13, 20)] [(2, 5), (6, 7), (9, 12)] (0, 0)
    (by constructor <;> decide) (by constructor <;> decide)

-- ---------------------------------------------------------------------------
-- Helper lemmas: score on empty matrices and appended top rows
-- ---------------------------------------------------------------------------

theorem getD_append_length {α : Type} (l : List α) (x : α) (d : α) :
    (l ++ [x]).getD l.length d = x := by
  induction l with
  | nil => rfl
  | cons a as ih =>
    simp only [List.cons_append, List.length_cons, List.getD_cons_succ]
    exact ih

theorem matrixEmpty_emptyMatrix (c : Nat) : matrixEmpty (emptyMatrix c) := by
  intro i j
  simp [emptyMatrix, BasicMatrix.get]

theorem covered_hole_of_empty (m : BasicMatrix) (hm : matrixEmpty m) :
    covered_hole m = none := by
  rw [covered_hole_none_iff_conds]
  refine (noHoles_iff_conds m).mpr ?_
  intro j i1 i2 _ _ _ hg
  rw [hm i1 j] at hg
  simp at hg

theorem insert_bottom_empty (m : BasicMatrix) (hm : matrixEmpty m) :
    matrixEmpty (insert_empty_bottom_row m) := by
  intro i j
  cases i with
  | zero =>
    show ((List.replicate m.cols false :: m.data).getD 0 []).getD j false = false
    rw [List.getD_cons_zero]
    exact getD_replicate_self m.cols j false
  | succ i2 =>
    show ((List.replicate m.cols false :: m.data).getD (i2 + 1) []).getD j false = false
    rw [List.getD_cons_succ]
    exact hm i2 j

theorem scoreGo_of_none (params : ScoreParams) (fuel : Nat) (mat : BasicMatrix)
    (sc depth : Int) (h : covered_hole mat = none) (hf : 0 < fuel) :
    scoreGo params fuel mat sc depth = (sc, mat.rows) := by
  cases fuel with
  | zero => omega
  | succ f => simp only [scoreGo, h]

theorem appendTop_get_lt (m : BasicMatrix) (i j : Nat) (hi : i < m.rows) :
    (appendEmptyTopRow m).get i j = m.get i j := by
  simp only [appendEmptyTopRow, BasicMatrix.get]
  rw [List.getD_append _ _ _ _ hi]

theorem appendTop_rows (m : BasicMatrix) : (appendEmptyTopRow m).rows = m.rows + 1 := by
  simp [appendEmptyTopRow, BasicMatrix.rows]

theorem choRowGo_congr (m1 m2 : BasicMatrix) (i : Nat)
    (hg : ∀ j, m1.get i j = m2.get i j) :
    ∀ (js : List Nat) (buf : List (Nat × Nat)),
    choRowGo m1 i js buf = choRowGo m2 i js buf := by
  intro js
  induction js with
  | nil => intro buf; rfl
  | cons j js ih =>
    intro buf
    simp only [choRowGo, hg j]
    split_ifs with h1 h2
    · rfl
    · exact ih _
    · exact ih _

theorem choRows_congr (m1 m2 : BasicMatrix) (hcols : m1.cols = m2.cols) :
    ∀ (i : Nat), (∀ r j, r < i → m1.get r j = m2.get r j) →
    ∀ (buf : List (Nat × Nat)), choRows m1 i buf = choRows m2 i buf := by
  intro i
  induction i with
  | zero => intro _ buf; rfl
  | succ i2 ih =>
    intro hg buf
    simp only [choRows]
    rw [choRowGo_congr m1 m2 i2 (fun j => hg i2 j (by omega)) (List.range m1.cols) buf]
    rw [hcols]
    cases h : choRowGo m2 i2 (List.range m2.cols) buf with
    | error e => simp only [h]
    | ok buf2 =>
      simp only [h]
      exact ih (fun r j hr => hg r j (by omega)) buf2

theorem choRowGo_empty_row (m : BasicMatrix) (i : Nat) (hrow : ∀ j, m.get i j = false) :
    ∀ (js : List Nat) (buf : List (Nat × Nat)), choRowGo m i js buf = .ok buf := by
  intro js
  induction js with
  | nil => intro buf; rfl
  | cons j js ih =>
    intro buf
    simp only [choRowGo]
    rw [if_neg (by simp [hrow j])]
    exact ih buf

theorem covered_hole_appendTop (m : BasicMatrix) :
    covered_hole (appendEmptyTopRow m) = covered_hole m := by
  have htop : ∀ j, (appendEmptyTopRow m).get m.rows j = false := by
    intro j
    show ((m.data ++ [List.replicate m.cols false]).getD m.rows []).getD j false = false
    have hidx : (m.data ++ [List.replicate m.cols false]).getD m.rows [] =
        List.replicate m.cols false := getD_append_length m.data _ _
    rw [hidx]
    exact getD_replicate_self m.cols j false
  have hlow : ∀ r j, r < m.rows → (appendEmptyTopRow m).get r j = m.get r j :=
    fun r j hr => appendTop_get_lt m r j hr
  have hkey : choRows (appendEmptyTopRow m) (m.rows + 1) (List.replicate m.cols (0, 0))
      = choRows m m.rows (List.replicate m.cols (0, 0)) := by
    simp only [choRows]
    rw [show (appendEmptyTopRow m).cols = m.cols from rfl]
    rw [choRowGo_empty_row (appendEmptyTopRow m) m.rows htop]
    show choRows (appendEmptyTopRow m) m.rows (List.replicate m.cols (0, 0)) = _
    exact choRows_congr (appendEmptyTopRow m) m rfl m.rows hlow _
  unfold covered_hole
  rw [show (appendEmptyTopRow m).cols = m.cols from rfl, appendTop_rows, hkey]

theorem remove_rows_appendTop (m : BasicMatrix) (a b : Nat) (ha : a ≤ m.rows)
    (hb : b ≤ m.rows) :
    remove_rows (appendEmptyTopRow m) a b = appendEmptyTopRow (remove_rows m a b) := by
  simp only [remove_rows, appendEmptyTopRow]
  congr 1
  rw [List.take_append_of_le_length ha, List.drop_append_of_le_length hb]
  exact (List.append_assoc _ _ _).symm

theorem gaps_appendTop (m : BasicMatrix) (i : Nat) (hi : i < m.rows) :
    gaps (appendEmptyTopRow m) i = gaps m i := by
  have hrow : rowAt (appendEmptyTopRow m) i = rowAt m i := by
    unfold rowAt
    rw [show (appendEmptyTopRow m).cols = m.cols from rfl]
    apply List.map_congr_left
    intro j _
    exact appendTop_get_lt m i j hi
  unfold gaps
  rw [hrow]

theorem negative_spaces_appendTop (m : BasicMatrix) (a b : Nat) (hb : b ≤ m.rows) :
    negative_spaces (appendEmptyTopRow m) a b = negative_spaces m a b := by
  unfold negative_spaces
  congr 1
  apply List.map_congr_left
  intro i hi
  have hmem := List.mem_range'_1.mp hi
  exact gaps_appendTop m i (by omega)

theorem piecesIn_appendTop (m : BasicMatrix) (a b : Nat) (hb : b ≤ m.rows) :
    piecesIn (appendEmptyTopRow m) a b = piecesIn m a b := by
  unfold piecesIn
  rw [negative_spaces_appendTop m a b hb]

theorem scoreGo_appendTop (params : ScoreParams) :
    ∀ (fuel : Nat) (mat : BasicMatrix) (sc depth : Int),
    (scoreGo params fuel (appendEmptyTopRow mat) sc depth).1 =
      (scoreGo params fuel mat sc depth).1 ∧
    (scoreGo params fuel (appendEmptyTopRow mat) sc depth).2 =
      (scoreGo params fuel mat sc depth).2 + 1 := by
  intro fuel
  induction fuel with
  | zero =>
    intro mat sc depth
    exact ⟨rfl, appendTop_rows mat⟩
  | succ f ih =>
    intro mat sc depth
    cases hch : covered_hole mat with
    | none =>
      simp only [scoreGo, covered_hole_appendTop, hch]
      exact ⟨by trivial, appendTop_rows mat⟩
    | some e =>
      rcases e with ⟨i, res⟩
      have hb1 : i < res.1 := (covered_hole_bounds mat (i, res) hch).1
      have hb2 : res.1 < res.2 := (covered_hole_bounds mat (i, res) hch).2.1
      have hb3 : res.2 ≤ mat.rows := (covered_hole_bounds mat (i, res) hch).2.2
      simp only [scoreGo, covered_hole_appendTop, hch]
      rw [piecesIn_appendTop mat (i + 1) res.2 hb3]
      rw [remove_rows_appendTop mat (i + 1) res.2 (by omega) hb3]
      exact ih (remove_rows mat (i + 1) res.2) _ _

-- ---------------------------------------------------------------------------
-- C5: score of the empty matrix
-- ---------------------------------------------------------------------------

/-- C5 counterexample: with row factor 1 the score of an empty matrix with
no stored rows is 1, not 0, because score counts the rows remaining after
the loop (including the inserted bottom row) times the row factor. -/
theorem score_empty_counterexample :
    score paramsRF1 (emptyMatrix 1) = 1 ∧ matrixEmpty (emptyMatrix 1) ∧
    paramsRF1.row_factor ≠ 0 :=
  ⟨by decide, matrixEmpty_emptyMatrix 1, by decide⟩

/-- C5 amended: for every parameter set, the score of a matrix with no
filled cells equals (rows + 1) times the row factor (the covered-hole loop
never runs and the inserted bottom row is counted); in particular it is 0
whenever the row factor is 0, as with the default parameters. -/
theorem score_empty_matrix_value (params : ScoreParams) (m : BasicMatrix)
    (hm : matrixEmpty m) :
    score params m = ((m.rows : Int) + 1) * params.row_factor := by
  simp only [score]
  have hins : covered_hole (insert_empty_bottom_row m) = none :=
    covered_hole_of_empty _ (insert_bottom_empty m hm)
  rw [scoreGo_of_none params _ _ 0 0 hins (by omega)]
  have hrows : (insert_empty_bottom_row m).rows = m.rows + 1 := by
    simp [insert_empty_bottom_row, BasicMatrix.rows]
  rw [hrows]
  push_cast
  ring

/-- Witness for C5's amended theorem at the default parameters on the
empty five-column matrix: the score is (0 + 1) * 0 = 0. -/
theorem score_empty_matrix_value_witness :
    score scoreParamsDefault (emptyMatrix 5) = ((0 : Int) + 1) * 0 :=
  score_empty_matrix_value scoreParamsDefault (emptyMatrix 5) (matrixEmpty_emptyMatrix 5)

-- ---------------------------------------------------------------------------
-- C6: score under an appended empty top row
-- ---------------------------------------------------------------------------

/-- C6 counterexample: with row factor 1, appending an all-empty row on
top of the empty one-column matrix changes the score from 1 to 2. -/
theorem score_append_top_counterexample :
    score paramsRF1 (appendEmptyTopRow (emptyMatrix 1)) ≠ score paramsRF1 (emptyMatrix 1) := by
  decide

/-- C6 amended: appending one all-empty row on top of a matrix changes the
score by exactly the row factor: the covered-hole loop is unaffected and
only the remaining-row count grows by one.  In particular the score is
invariant exactly when the row factor is 0, as with the default
parameters. -/
theorem score_append_top_amended (params : ScoreParams) (m : BasicMatrix) :
    score params (appendEmptyTopRow m) = score params m + params.row_factor := by
  simp only [score]
  have hcomm : insert_empty_bottom_row (appendEmptyTopRow m) =
      appendEmptyTopRow (insert_empty_bottom_row m) := by
    simp [insert_empty_bottom_row, appendEmptyTopRow]
  rw [hcomm]
  rw [appendTop_rows (insert_empty_bottom_row m)]
  obtain ⟨hc1, hc2⟩ := scoreGo_appendTop params ((insert_empty_bottom_row m).rows + 1 + 1)
    (insert_empty_bottom_row m) 0 0
  rw [hc1, hc2]
  have hind := scoreGo_fuel_indep params ((insert_empty_bottom_row m).rows + 1 + 1)
    ((insert_empty_bottom_row m).rows + 1) (insert_empty_bottom_row m) 0 0
    (by omega) (by omega)
  rw [hind]
  push_cast
  ring

end Blockfish
